import Mathlib

/-!
# Verification of `bax/alg/algorithms.py`

Shallow embedding of the BAX algorithm module and proofs about it.

The embedding covers:
* the execution path (`ExePath`) and the generic pull loop of
  `Algorithm.run_algorithm_on_f` together with `Algorithm.get_next_x`;
* the `LinearScan` and `LinearScanRandGap` variants (parameter handling and
  the grid-regeneration step of `LinearScanRandGap.run_algorithm_on_f`);
* the `Dijkstras` variant: its priority-queue search `dijkstras`, the
  trace-appending edge evaluator `distance` (including its `assert cost >= 0`),
  `set_params`, and `get_output_from_exe_path`.

Python floats are modelled by `ℚ` (`float("inf")` by `⊤ : WithTop ℚ` or the
`none` case of `Option ℚ` where the source compares against infinity), vertex
objects by their integer `index`, and raised exceptions by explicit error
results.  While-loops are modelled with an explicit fuel parameter together
with a proof that the fuel chosen by the top-level entry points is sufficient.
-/

set_option maxHeartbeats 1600000

universe u v w

variable {X : Type u} {Y : Type v} {O : Type w}

/-- The execution path `Namespace(x=[], y=[])`: the trace of query inputs and
query outputs accumulated during a run, as two parallel lists. -/
@[ext]
structure ExePath (X : Type u) (Y : Type v) where
  x : List X
  y : List Y
  deriving DecidableEq, Repr

namespace Algorithm

/-- `Algorithm.get_next_x`: if the execution path already has as many entries
as `self.params.x_path`, the algorithm is complete (`none`); otherwise the
next query is `x_path[len(exe_path.x)]`. -/
def get_next_x (x_path : List X) (p : ExePath X Y) : Option X :=
  if p.x.length = x_path.length then none else x_path[p.x.length]?

/-- The while-loop inside `Algorithm.run_algorithm_on_f`: ask `next` for the
next query; on `none` stop and return the path; otherwise query `f`, append
the pair and continue.  `fuel` bounds the number of iterations (the source
loop has no bound; `none` models non-termination within the given fuel). -/
def runLoop (next : ExePath X Y → Option X) (f : X → Y) :
    ℕ → ExePath X Y → Option (ExePath X Y)
  | 0, p =>
    match next p with
    | none => some p
    | some _ => none
  | fuel + 1, p =>
    match next p with
    | none => some p
    | some xq => runLoop next f fuel ⟨p.x ++ [xq], p.y ++ [f xq]⟩

/-- `Algorithm.run_algorithm_on_f`: run the pull loop from the empty execution
path, then pair the final path with `get_output_from_exe_path` (here the
parameter `out`). -/
def run_algorithm_on_f (next : ExePath X Y → Option X) (out : ExePath X Y → O)
    (f : X → Y) (fuel : ℕ) : Option (ExePath X Y × O) :=
  (runLoop next f fuel ⟨[], []⟩).map (fun tr => (tr, out tr))

/-- `Algorithm.run_algorithm_on_f` as invoked on a stored parameter bundle
`p` of any shape `P`: the loop body (lines 47–60) reads the bundle only
through `get_next_x` and `get_output_from_exe_path` (here the accessors
`next` and `out` applied to `p`) and never assigns to `self.params`, so the
bundle is available alongside the result exactly as it was.  This covers
every variant that does not override `run_algorithm_on_f` (`LinearScan`,
`AverageOutputs`, `SortOutputs`, `OptRightScan`). -/
def run_on_bundle {P : Type u} (next : P → ExePath X Y → Option X)
    (out : P → ExePath X Y → O) (p : P) (f : X → Y) (fuel : ℕ) :
    Option ((ExePath X Y × O) × P) :=
  (run_algorithm_on_f (next p) (out p) f fuel).map (fun r => (r, p))

end Algorithm

/-- A trace is produced by the pull protocol for `next` and oracle `f`:
the two lists have equal length, the `i`-th query is exactly what `next`
returns on the length-`i` prefix of the trace, the `i`-th output is the
oracle's answer to the `i`-th query, and `next` signals completion on the
full trace. -/
def ProducedBy (next : ExePath X Y → Option X) (f : X → Y) (tr : ExePath X Y) : Prop :=
  tr.x.length = tr.y.length ∧
  (∀ i : ℕ, i < tr.x.length →
    next ⟨tr.x.take i, tr.y.take i⟩ = tr.x[i]? ∧ tr.y[i]? = (tr.x[i]?).map f) ∧
  next tr = none

/-- Loop invariant of the pull loop: the trace built so far is consistent
with the protocol on every proper prefix. -/
def PartialTrace (next : ExePath X Y → Option X) (f : X → Y) (p : ExePath X Y) : Prop :=
  p.x.length = p.y.length ∧
  ∀ i : ℕ, i < p.x.length →
    next ⟨p.x.take i, p.y.take i⟩ = p.x[i]? ∧ p.y[i]? = (p.x[i]?).map f

lemma partialTrace_nil (next : ExePath X Y → Option X) (f : X → Y) :
    PartialTrace next f ⟨[], []⟩ := by
  refine ⟨rfl, ?_⟩
  intro i hi
  simp at hi

lemma partialTrace_snoc {next : ExePath X Y → Option X} {f : X → Y} {p : ExePath X Y}
    {xq : X} (h : PartialTrace next f p) (hx : next p = some xq) :
    PartialTrace next f ⟨p.x ++ [xq], p.y ++ [f xq]⟩ := by
  obtain ⟨hlen, hpre⟩ := h
  refine ⟨by simp [hlen], ?_⟩
  intro i hi
  simp only [List.length_append, List.length_cons, List.length_nil] at hi
  rcases Nat.lt_or_ge i p.x.length with hilt | hige
  · have hx1 : (p.x ++ [xq]).take i = p.x.take i :=
      List.take_append_of_le_length (Nat.le_of_lt hilt)
    have hy1 : (p.y ++ [f xq]).take i = p.y.take i :=
      List.take_append_of_le_length (by rw [← hlen]; exact Nat.le_of_lt hilt)
    have hx2 : (p.x ++ [xq])[i]? = p.x[i]? := List.getElem?_append_left hilt
    have hy2 : (p.y ++ [f xq])[i]? = p.y[i]? :=
      List.getElem?_append_left (by rw [← hlen]; exact hilt)
    rw [hx1, hy1, hx2, hy2]
    exact hpre i hilt
  · have hieq : i = p.x.length := Nat.le_antisymm (by omega) hige
    subst hieq
    have hx1 : (p.x ++ [xq]).take p.x.length = p.x := List.take_left p.x [xq]
    have hy1 : (p.y ++ [f xq]).take p.x.length = p.y := by
      rw [hlen]; exact List.take_left p.y [f xq]
    have hx2 : (p.x ++ [xq])[p.x.length]? = some xq := by
      rw [List.getElem?_append_right (Nat.le_refl _)]
      simp
    have hy2 : (p.y ++ [f xq])[p.x.length]? = some (f xq) := by
      rw [List.getElem?_append_right (by rw [hlen])]
      simp [hlen]
    rw [hx1, hy1, hx2, hy2]
    exact ⟨hx, rfl⟩

/-- Soundness of the pull loop: starting from a consistent partial trace,
any trace it returns is produced by the protocol, and the starting trace was
only ever extended by whole (input, output) pairs. -/
lemma runLoop_sound {next : ExePath X Y → Option X} {f : X → Y} :
    ∀ (fuel : ℕ) (p tr : ExePath X Y), PartialTrace next f p →
      Algorithm.runLoop next f fuel p = some tr →
      ProducedBy next f tr ∧
        ∃ ext : List (X × Y), tr.x = p.x ++ ext.map Prod.fst ∧
          tr.y = p.y ++ ext.map Prod.snd := by
  intro fuel
  induction fuel with
  | zero =>
    intro p tr hp hrun
    unfold Algorithm.runLoop at hrun
    cases hnext : next p with
    | none =>
      rw [hnext] at hrun
      cases hrun
      exact ⟨⟨hp.1, hp.2, hnext⟩, [], by simp, by simp⟩
    | some xq => rw [hnext] at hrun; cases hrun
  | succ fuel ih =>
    intro p tr hp hrun
    unfold Algorithm.runLoop at hrun
    cases hnext : next p with
    | none =>
      rw [hnext] at hrun
      cases hrun
      exact ⟨⟨hp.1, hp.2, hnext⟩, [], by simp, by simp⟩
    | some xq =>
      rw [hnext] at hrun
      obtain ⟨hprod, ext, hx, hy⟩ := ih _ _ (partialTrace_snoc hp hnext) hrun
      exact ⟨hprod, (xq, f xq) :: ext, by simpa using hx, by simpa using hy⟩

/-- Any two traces produced by the same `next` policy and the same
deterministic oracle are equal. -/
lemma producedBy_unique {next : ExePath X Y → Option X} {f : X → Y}
    {tr₁ tr₂ : ExePath X Y} (h₁ : ProducedBy next f tr₁) (h₂ : ProducedBy next f tr₂) :
    tr₁ = tr₂ := by
  obtain ⟨hlen₁, hpre₁, hdone₁⟩ := h₁
  obtain ⟨hlen₂, hpre₂, hdone₂⟩ := h₂
  have key : ∀ i : ℕ, i ≤ tr₁.x.length → i ≤ tr₂.x.length →
      tr₁.x.take i = tr₂.x.take i ∧ tr₁.y.take i = tr₂.y.take i := by
    intro i
    induction i with
    | zero => intro _ _; simp
    | succ i ih =>
      intro h1 h2
      obtain ⟨ihx, ihy⟩ := ih (by omega) (by omega)
      have hq₁ := hpre₁ i (by omega)
      have hq₂ := hpre₂ i (by omega)
      have hxeq : tr₁.x[i]? = tr₂.x[i]? := by
        rw [← hq₁.1, ← hq₂.1, ihx, ihy]
      have hyeq : tr₁.y[i]? = tr₂.y[i]? := by
        rw [hq₁.2, hq₂.2, hxeq]
      constructor
      · rw [List.take_succ, List.take_succ, ihx, hxeq]
      · rw [List.take_succ, List.take_succ, ihy, hyeq]
  have hstuck : ∀ {a b : ExePath X Y},
      a.x.length = a.y.length → b.x.length = b.y.length →
      (∀ i : ℕ, i < b.x.length →
        next ⟨b.x.take i, b.y.take i⟩ = b.x[i]? ∧ b.y[i]? = (b.x[i]?).map f) →
      next a = none → a.x.take a.x.length = b.x.take a.x.length →
      a.y.take a.x.length = b.y.take a.x.length → ¬ a.x.length < b.x.length := by
    intro a b hla hlb hpb hda hxt hyt hlt
    have hq := hpb a.x.length hlt
    have hax : b.x.take a.x.length = a.x := by
      rw [← hxt, List.take_length]
    have hay : b.y.take a.x.length = a.y := by
      rw [← hyt, hla, List.take_length]
    rw [hax, hay] at hq
    have : next a = b.x[a.x.length]? := by
      have : (⟨a.x, a.y⟩ : ExePath X Y) = a := rfl
      rw [← this]; exact hq.1
    rw [hda, List.getElem?_eq_getElem hlt] at this
    cases this
  have hlenx : tr₁.x.length = tr₂.x.length := by
    rcases Nat.lt_trichotomy tr₁.x.length tr₂.x.length with hlt | heq | hgt
    · obtain ⟨hxt, hyt⟩ := key tr₁.x.length (Nat.le_refl _) (Nat.le_of_lt hlt)
      exact absurd hlt (hstuck hlen₁ hlen₂ hpre₂ hdone₁ hxt hyt)
    · exact heq
    · obtain ⟨hxt, hyt⟩ := key tr₂.x.length (Nat.le_of_lt hgt) (Nat.le_refl _)
      exact absurd hgt (hstuck hlen₂ hlen₁ hpre₁ hdone₂ hxt.symm hyt.symm)
  obtain ⟨hxt, hyt⟩ := key tr₁.x.length (Nat.le_refl _) (Nat.le_of_eq hlenx)
  ext1
  · rw [← List.take_length tr₁.x, hxt, hlenx, List.take_length]
  · rw [← List.take_length tr₁.y, ← hlen₁, hyt, hlenx, hlen₂, List.take_length]

/-! ## Scan-style variants

`LinearScan` keeps a `name` and an `x_path`; its run is the inherited generic
pull loop, which reads `self.params` but never assigns to it.  The run is
modelled in parameter-passing style: it returns the result together with the
parameter bundle as it stands after the call, so that (im)mutability of the
bundle is a provable statement rather than a modelling assumption. -/

/-- Parameters of `LinearScan` after `set_params`. -/
structure LinearScanParams (X : Type u) where
  name : String
  x_path : List X
  deriving DecidableEq, Repr

namespace LinearScan

/-- `LinearScan.set_params`: `name` defaults to `"LinearScan"`, `x_path`
defaults to `[]`. -/
def set_params (name : Option String) (x_path : Option (List X)) : LinearScanParams X :=
  { name := name.getD "LinearScan", x_path := x_path.getD [] }

/-- `LinearScan.get_output_from_exe_path` returns `exe_path.y`. -/
def get_output_from_exe_path (p : ExePath X Y) : List Y := p.y

/-- `LinearScan.run_algorithm_on_f`: the inherited generic pull loop, with the
parameter bundle threaded through (the source never assigns to `self.params`
during this run, hence the bundle is returned as-is). -/
def run_algorithm_on_f (p : LinearScanParams X) (f : X → Y) (fuel : ℕ) :
    Option ((ExePath X Y × List Y) × LinearScanParams X) :=
  (Algorithm.run_algorithm_on_f (Algorithm.get_next_x p.x_path)
    get_output_from_exe_path f fuel).map (fun r => (r, p))

end LinearScan

/-- Parameters of `LinearScanRandGap` after `set_params`: the inherited
`x_path` plus the pristine copy `x_path_orig` taken at construction. -/
structure LinearScanRandGapParams where
  name : String
  x_path : List (List ℚ)
  x_path_orig : List (List ℚ)
  deriving DecidableEq, Repr

/-- `np.linspace a b m` with endpoint: `a + i*(b-a)/(m-1)` for `i < m`
(`[a]` for `m = 1`, `[]` for `m = 0`). -/
def linspace (a b : ℚ) (m : ℕ) : List ℚ :=
  if m = 0 then []
  else if m = 1 then [a]
  else (List.range m).map (fun i => a + i * (b - a) / ((m : ℚ) - 1))

namespace LinearScanRandGap

/-- The bounds `(min_gap, max_gap)` of the random grid size drawn by
`LinearScanRandGap.run_algorithm_on_f`:
`ceil((1 - 0.2) * n_grid)` and `ceil((1 + 0.2) * n_grid)`. -/
def gapBounds (n_grid : ℕ) : ℕ × ℕ :=
  (⌈(1 - 2/10 : ℚ) * n_grid⌉₊, ⌈(1 + 2/10 : ℚ) * n_grid⌉₊)

/-- `LinearScanRandGap.run_algorithm_on_f`: regenerate `self.params.x_path`
as a fresh evenly spaced grid with `new_n_grid` points (the value drawn by
`np.random.randint(min_gap, max_gap)`, supplied here as an argument) between
the extremes of `x_path_orig`, then run the inherited pull loop.  The source
assigns the new grid to `self.params.x_path`, so the returned bundle carries
it.  `none` models the `np.min`/`np.max` error on an empty `x_path_orig`. -/
def run_algorithm_on_f (p : LinearScanRandGapParams) (f : List ℚ → Y)
    (new_n_grid : ℕ) (fuel : ℕ) :
    Option ((ExePath (List ℚ) Y × List Y) × LinearScanRandGapParams) :=
  match (p.x_path_orig.flatten).min?, (p.x_path_orig.flatten).max? with
  | some min_x_path, some max_x_path =>
    let new_x_path := (linspace min_x_path max_x_path new_n_grid).map (fun x => [x])
    let p' : LinearScanRandGapParams := { p with x_path := new_x_path }
    (Algorithm.run_algorithm_on_f (Algorithm.get_next_x p'.x_path)
      LinearScan.get_output_from_exe_path f fuel).map (fun r => (r, p'))
  | _, _ => none

end LinearScanRandGap

/-! ## Graph collaborator

A vertex is identified with its stable integer `index` into the fixed vertex
list (`self.params.vertices`); `nbrs[i]` is the ordered list of the indices of
the neighbors of vertex `i` (`vertex.neighbors`). -/

/-- The fixed vertex list with stable 0-based indices and per-vertex ordered
neighbor lists. -/
structure Graph where
  nbrs : List (List ℕ)
  deriving DecidableEq, Repr

namespace Graph

/-- Number of vertices (`len(self.params.vertices)`). -/
def n (g : Graph) : ℕ := g.nbrs.length

/-- `vertex.neighbors` of the vertex with index `v`. -/
def neighbors (g : Graph) (v : ℕ) : List ℕ := g.nbrs.getD v []

/-- Wellformedness: every neighbor index points back into the vertex list. -/
def WF (g : Graph) : Prop := ∀ l ∈ g.nbrs, ∀ v ∈ l, v < g.n

/-- `u → v` is an edge: `v` appears in the neighbor list of `u`. -/
def Edge (g : Graph) (u v : ℕ) : Prop := u < g.n ∧ v ∈ g.neighbors u

instance (g : Graph) (u v : ℕ) : Decidable (g.Edge u v) :=
  inferInstanceAs (Decidable (_ ∧ _))

end Graph

/-- A valid start-to-goal walk, in the words of the claim: the first element
is `s`, the last is `t`, and each consecutive pair is an edge. -/
def ValidWalk (g : Graph) (s t : ℕ) (p : List ℕ) : Prop :=
  p.head? = some s ∧ p.getLast? = some t ∧ List.Chain' g.Edge p

/-- Executable edge-chain check used for deciding `ValidWalk`. -/
def walkChainB (g : Graph) : List ℕ → Bool
  | [] => true
  | [_] => true
  | a :: b :: rest => decide (g.Edge a b) && walkChainB g (b :: rest)

lemma walkChainB_iff (g : Graph) : ∀ p : List ℕ,
    walkChainB g p = true ↔ List.Chain' g.Edge p
  | [] => by simp [walkChainB]
  | [a] => by simp [walkChainB]
  | a :: b :: rest => by
    unfold walkChainB
    rw [Bool.and_eq_true_iff, walkChainB_iff g (b :: rest), List.chain'_cons]
    rw [decide_eq_true_iff]

instance (g : Graph) (s t : ℕ) (p : List ℕ) : Decidable (ValidWalk g s t p) :=
  decidable_of_iff (p.head? = some s ∧ p.getLast? = some t ∧ walkChainB g p = true)
    (by unfold ValidWalk; rw [walkChainB_iff])

instance (g : Graph) : Decidable g.WF :=
  inferInstanceAs (Decidable (∀ l ∈ g.nbrs, ∀ v ∈ l, v < g.n))

/-- Cost of a walk: the sum of `w` over consecutive pairs. -/
def walkCost (w : ℕ → ℕ → ℚ) : List ℕ → ℚ
  | [] => 0
  | [_] => 0
  | u :: v :: rest => w u v + walkCost w (v :: rest)

/-- Start-to-`v` paths, as an inductive relation convenient for induction:
built from the one-vertex walk `[s]` by appending edges at the end. -/
inductive IsPath (g : Graph) (s : ℕ) : ℕ → List ℕ → Prop
  | refl : IsPath g s s [s]
  | snoc {u v : ℕ} {p : List ℕ} : IsPath g s u p → g.Edge u v → IsPath g s v (p ++ [v])

/-! ## The `Dijkstras` variant -/

/-- Result of the inner `dijkstras` search: a normal return value
`(cost, path)` — with `cost = ⊤` and `path = []` when the frontier empties —
or the `AssertionError` raised by `assert cost >= 0` in `distance`. -/
inductive DijkOutcome where
  | success (cost : WithTop ℚ) (path : List ℕ)
  | assertFail
  deriving DecidableEq, Repr

/-- The mutable state of one `Dijkstras.run_algorithm_on_f` call: the search
bookkeeping (`explored`, `min_cost`, `prev`, the frontier `to_explore`) and
the closed-over execution path (`exeX`/`exeY` model `exe_path.x`/`exe_path.y`).
`evals` and `pops` are ghost instrumentation recording, respectively, each
`distance(current, neighbor)` call (with the neighbor's explored flag at call
time) and each expanded (popped and accepted) `(best_cost, current)` entry;
they influence nothing. -/
structure DijkState (X : Type u) (Y : Type v) where
  explored : List Bool
  min_cost : List (Option ℚ)
  prev : List (Option ℕ)
  to_explore : List (ℚ × ℕ)
  exeX : List X
  exeY : List Y
  evals : List (ℕ × ℕ × Bool)
  pops : List (ℚ × ℕ)
  deriving DecidableEq, Repr

/-- `a < b` where `b : Option ℚ` models a float that may be `inf`
(`none`); everything is below infinity. -/
def ltOpt (a : ℚ) : Option ℚ → Bool
  | none => true
  | some b => decide (a < b)

/-- Priority order of `heapq` entries `(cost, vertex)`: lexicographic by cost,
then index (the tie-break among equal costs is unspecified by the spec; this
model fixes index order). -/
def entryLE (e₁ e₂ : ℚ × ℕ) : Bool :=
  decide (e₁.1 < e₂.1 ∨ (e₁.1 = e₂.1 ∧ e₁.2 ≤ e₂.2))

/-- `heapq.heappop`: remove and return a minimal entry (`none` on an empty
frontier). -/
def popMin : List (ℚ × ℕ) → Option ((ℚ × ℕ) × List (ℚ × ℕ))
  | [] => none
  | e :: rest =>
    match popMin rest with
    | none => some (e, [])
    | some (m, rest') => if entryLE e m then some (e, rest) else some (m, e :: rest')

/-- The part of `distance(current, neighbor)` visible on the state: extend the
closed-over `exe_path` by the query sequences returned by `cost_func`, and
record the call in the `evals` ghost (together with the neighbor's explored
flag at call time). -/
def evalStep (cf : ℕ → ℕ → ℚ × List X × List Y) (current neighbor : ℕ)
    (s : DijkState X Y) : DijkState X Y :=
  { s with exeX := s.exeX ++ (cf current neighbor).2.1,
           exeY := s.exeY ++ (cf current neighbor).2.2,
           evals := s.evals ++ [(current, neighbor, s.explored.getD neighbor false)] }

/-- The relaxation step: if the neighbor is unexplored and
`best_cost + step_cost < min_cost[neighbor]` (with `∞` as the default), push
the new entry and update `min_cost` and `prev`; otherwise leave the state
unchanged. -/
def relaxStep (cf : ℕ → ℕ → ℚ × List X × List Y) (best_cost : ℚ)
    (current neighbor : ℕ) (s : DijkState X Y) : DijkState X Y :=
  if !(s.explored.getD neighbor false)
      && ltOpt (best_cost + (cf current neighbor).1) (s.min_cost.getD neighbor none) then
    { s with
      to_explore := s.to_explore ++ [(best_cost + (cf current neighbor).1, neighbor)],
      min_cost := s.min_cost.set neighbor (some (best_cost + (cf current neighbor).1)),
      prev := s.prev.set neighbor (some current) }
  else s

/-- The `for neighbor in current.neighbors` loop of `dijkstras`: evaluate
`distance(current, neighbor)` (which extends the execution path by the query
sequences returned by `cost_func` and then asserts the cost is non-negative),
and relax the neighbor when it is unexplored and the new cost beats
`min_cost[neighbor]`.  Returns the updated state and whether the assertion
fired (`true` models the raised `AssertionError`). -/
def expandNbrs (cf : ℕ → ℕ → ℚ × List X × List Y) (best_cost : ℚ) (current : ℕ) :
    List ℕ → DijkState X Y → DijkState X Y × Bool
  | [], s => (s, false)
  | neighbor :: rest, s =>
    if (cf current neighbor).1 < 0 then (evalStep cf current neighbor s, true)
    else
      expandNbrs cf best_cost current rest
        (relaxStep cf best_cost current neighbor (evalStep cf current neighbor s))

/-- Modelled from the spec: `backtrack_indices` is imported from
`bax.util.graph`, whose source is not part of the repository snapshot.  Per
the spec it converts a terminal index plus a predecessor map into the full
index sequence from start to that terminal, following predecessor links
backwards from the terminal; the accumulator yields start→terminal order.
The fuel bounds the chain length. -/
def backtrackAux (prev : List (Option ℕ)) : ℕ → ℕ → List ℕ → List ℕ
  | 0, i, acc => i :: acc
  | fuel + 1, i, acc =>
    match prev.getD i none with
    | none => i :: acc
    | some j => backtrackAux prev fuel j (i :: acc)

/-- Modelled from the spec (see `backtrackAux`). -/
def backtrack_indices (i : ℕ) (prev : List (Option ℕ)) : List ℕ :=
  backtrackAux prev prev.length i []

/-- The state right after accepting a popped entry `(best_cost, current)`:
remove it from the frontier, set `explored[current.index] = True`, and record
the expansion in the `pops` ghost. -/
def markPop (s : DijkState X Y) (best_cost : ℚ) (current : ℕ)
    (rest : List (ℚ × ℕ)) : DijkState X Y :=
  { s with to_explore := rest,
           explored := s.explored.set current true,
           pops := s.pops ++ [(best_cost, current)] }

/-- The `while len(to_explore) > 0` loop of `dijkstras`, with explicit fuel
(`none` models running out of fuel; `dijkFuel` below always suffices).
Pop a minimal entry; skip it if already explored; otherwise mark it explored,
return `(best_cost, reconstructed path)` if it is the goal, and otherwise
expand its neighbors. -/
def dijkLoop (g : Graph) (cf : ℕ → ℕ → ℚ × List X × List Y) (goal : ℕ) :
    ℕ → DijkState X Y → Option (DijkOutcome × DijkState X Y)
  | 0, _ => none
  | fuel + 1, s =>
    match popMin s.to_explore with
    | none => some (DijkOutcome.success ⊤ [], s)
    | some ((best_cost, current), rest) =>
      if s.explored.getD current false then
        dijkLoop g cf goal fuel { s with to_explore := rest }
      else
        if current = goal then
          some (DijkOutcome.success (↑best_cost)
            (backtrack_indices current (markPop s best_cost current rest).prev),
            markPop s best_cost current rest)
        else
          match expandNbrs cf best_cost current (g.neighbors current)
              (markPop s best_cost current rest) with
          | (s₂, true) => some (DijkOutcome.assertFail, s₂)
          | (s₂, false) => dijkLoop g cf goal fuel s₂

/-- The state at entry of `dijkstras(start, goal)`: nothing explored, all
`min_cost` infinite, no predecessors, frontier `[(0, start)]`, empty
execution path. -/
def dijkInit (g : Graph) (start : ℕ) : DijkState X Y :=
  { explored := List.replicate g.n false,
    min_cost := List.replicate g.n none,
    prev := List.replicate g.n none,
    to_explore := [(0, start)],
    exeX := [], exeY := [], evals := [], pops := [] }

/-- Termination measure: frontier size plus the total degree of unexplored
vertices; it strictly decreases at every loop iteration. -/
def dijkPhi (g : Graph) (s : DijkState X Y) : ℕ :=
  s.to_explore.length +
    (((List.range g.n).filter (fun i => !(s.explored.getD i false))).map
      (fun i => (g.neighbors i).length)).sum

/-- Fuel sufficient for any run: one more than the initial measure. -/
def dijkFuel (g : Graph) : ℕ := (g.nbrs.map List.length).sum + 2

/-- The full `dijkstras(start, goal)` call made by
`Dijkstras.run_algorithm_on_f`, returning the outcome and the final state
(whose `exeX`/`exeY` are the closed-over `exe_path`).  The fuel `dijkFuel g`
is provably sufficient, so the default junk value is never used. -/
def dijkRun (g : Graph) (cf : ℕ → ℕ → ℚ × List X × List Y) (start goal : ℕ) :
    DijkOutcome × DijkState X Y :=
  (dijkLoop g cf goal (dijkFuel g) (dijkInit g start)).getD
    (DijkOutcome.assertFail, dijkInit g start)

namespace Dijkstras

/-- `Dijkstras.run_algorithm_on_f(f)`: run `dijkstras` with the edge cost
evaluator `cost_func(u, v, f)`.  The source returns `(exe_path, min_cost)`;
here the execution path is the `exeX`/`exeY` of the returned state and
`min_cost` is the returned `DijkOutcome`.  (The `np.random.seed()` call and
the diagnostic `true_cost` reporting affect neither the result nor the
trace.) -/
def run_algorithm_on_f (g : Graph)
    (cost_func : ℕ → ℕ → (X → Y) → ℚ × List X × List Y) (f : X → Y)
    (start goal : ℕ) : DijkOutcome × DijkState X Y :=
  dijkRun g (fun u v => cost_func u v f) start goal

/-- `Dijkstras.get_output_from_exe_path` raises
`RuntimeError("Can't return output from execution path for Dijkstras")`,
modelled as an error value (never `Except.ok`). -/
def get_output_from_exe_path (_exe_path : ExePath X Y) : Except String O :=
  Except.error "Can't return output from execution path for Dijkstras"

/-- Input parameter bundle for `Dijkstras.set_params`: a namespace/dict in
which any field may be absent (`getattr(params, ..., default)` semantics). -/
structure InputParams (X : Type u) (Y : Type v) where
  name : Option String
  start : Option ℕ
  goal : Option ℕ
  vertices : Option Graph
  cost_func : Option (ℕ → ℕ → (X → Y) → ℚ × List X × List Y)
  true_cost : Option (ℕ → ℕ → ℚ × List X × List Y)

/-- The stored `self.params` of `Dijkstras` after `set_params`. -/
structure Params (X : Type u) (Y : Type v) where
  name : String
  start : Option ℕ
  goal : Option ℕ
  vertices : Option Graph
  cost_func : Option (ℕ → ℕ → (X → Y) → ℚ × List X × List Y)
  true_cost : Option (ℕ → ℕ → ℚ × List X × List Y)

/-- `Dijkstras.set_params`: every field is read with `getattr(params, ..., default)`;
`start`, `goal` and `vertices` default to `None` and are stored as absent
without any validation.  (The source's defaults for `cost_func`/`true_cost`
are two-argument `lambda u v: 0` placeholders that cannot be used at their
call sites; absence is kept as `none` here.) -/
def set_params (p : InputParams X Y) : Params X Y :=
  { name := p.name.getD "Dijkstras",
    start := p.start,
    goal := p.goal,
    vertices := p.vertices,
    cost_func := p.cost_func,
    true_cost := p.true_cost }

/-- The `Dijkstras.run_algorithm_on_f(f)` call as invoked on the stored
bundle: the source reads `self.params.vertices`, `self.params.start`,
`self.params.goal` and `self.params.cost_func` — an absent one (`None`)
crashes the call, modelled by `none` — and never assigns to `self.params`,
so the bundle is available alongside the result exactly as it was. -/
def run_on_bundle (p : Params X Y) (f : X → Y) :
    Option ((DijkOutcome × DijkState X Y) × Params X Y) :=
  match p.vertices, p.start, p.goal, p.cost_func with
  | some g, some start, some goal, some cost_func =>
    some (run_algorithm_on_f g cost_func f start goal, p)
  | _, _, _, _ => none

end Dijkstras

/-- Parameters of `Noop` after `set_params`: only the inherited `name`
(defaulting to `"Algorithm"`, since `Noop.set_params` adds nothing). -/
structure NoopParams where
  name : String
  deriving DecidableEq, Repr

namespace Noop

/-- `Noop.set_params`: only the inherited base assignment runs. -/
def set_params (name : Option String) : NoopParams :=
  { name := name.getD "Algorithm" }

/-- `Noop.run_algorithm_on_f`: returns an empty execution path and output
`0` without querying `f`; the reseeding, the random wait, the sleep and the
prints affect neither the result nor the bundle, and `self.params` is never
assigned, so the bundle is returned exactly as it was. -/
def run_algorithm_on_f (p : NoopParams) (_f : X → Y) :
    (ExePath X Y × ℕ) × NoopParams :=
  ((⟨[], []⟩, 0), p)

end Noop

/-! ## Helper lemmas: `getD`, `set`, `replicate` -/

lemma getD_set_self {α : Type u} (l : List α) (i : ℕ) (a d : α) (h : i < l.length) :
    (l.set i a).getD i d = a := by
  rw [List.getD_eq_getElem _ _ (by simpa using h)]
  simp [List.getElem_set_self]

lemma getD_set_ne {α : Type u} (l : List α) (i j : ℕ) (a d : α) (h : j ≠ i) :
    (l.set i a).getD j d = l.getD j d := by
  unfold List.getD
  rw [List.get?_eq_getElem?, List.get?_eq_getElem?,
    List.getElem?_set_ne (fun hh => h hh.symm)]

lemma getD_replicate {α : Type u} (n i : ℕ) (a d : α) (h : i < n) :
    (List.replicate n a).getD i d = a := by
  rw [List.getD_eq_getElem _ _ (by simpa using h)]
  simp

lemma getD_default {α : Type u} (l : List α) (i : ℕ) (d : α) (h : l.length ≤ i) :
    l.getD i d = d :=
  List.getD_eq_default _ _ h

/-! ## Lemmas about `popMin` -/

lemma popMin_eq_none {l : List (ℚ × ℕ)} : popMin l = none ↔ l = [] := by
  cases l with
  | nil => simp [popMin]
  | cons e rest =>
    simp only [popMin]
    constructor
    · intro h
      cases hrest : popMin rest with
      | none => rw [hrest] at h; cases h
      | some p =>
        rw [hrest] at h
        obtain ⟨m, rest'⟩ := p
        by_cases hle : entryLE e m <;> simp [hle] at h
    · intro h; cases h

lemma popMin_spec : ∀ {l : List (ℚ × ℕ)} {m : ℚ × ℕ} {r : List (ℚ × ℕ)},
    popMin l = some (m, r) →
    m ∈ l ∧ l.length = r.length + 1 ∧ (∀ e ∈ l, m.1 ≤ e.1) ∧
      (∀ e ∈ r, e ∈ l) ∧ (∀ e ∈ l, e ≠ m → e ∈ r) := by
  intro l
  induction l with
  | nil => intro m r h; simp [popMin] at h
  | cons e rest ih =>
    intro m r h
    rw [popMin] at h
    cases hrest : popMin rest with
    | none =>
      rw [hrest] at h
      obtain ⟨rfl, rfl⟩ : e = m ∧ ([] : List (ℚ × ℕ)) = r := by
        cases h; exact ⟨rfl, rfl⟩
      have hnil : rest = [] := popMin_eq_none.mp hrest
      subst hnil
      refine ⟨List.mem_cons_self _ _, rfl, ?_, ?_, ?_⟩
      · intro x hx
        rcases List.mem_cons.mp hx with rfl | hx
        · exact le_refl _
        · simp at hx
      · intro x hx; simp at hx
      · intro x hx hne
        rcases List.mem_cons.mp hx with rfl | hx
        · exact absurd rfl hne
        · simp at hx
    | some p =>
      obtain ⟨m', rest'⟩ := p
      rw [hrest] at h
      simp only at h
      obtain ⟨hmem', hlen', hle', hsub', hrest'⟩ := ih hrest
      by_cases hcmp : entryLE e m'
      · rw [if_pos hcmp] at h
        simp only [Option.some.injEq, Prod.mk.injEq] at h
        obtain ⟨hm, hr⟩ := h
        subst hm
        subst hr
        have hem : e.1 ≤ m'.1 := by
          unfold entryLE at hcmp
          rcases of_decide_eq_true hcmp with hlt | ⟨heq, _⟩
          · exact le_of_lt hlt
          · exact le_of_eq heq
        refine ⟨List.mem_cons_self _ _, rfl, ?_, ?_, ?_⟩
        · intro x hx
          rcases List.mem_cons.mp hx with rfl | hx
          · exact le_refl _
          · exact le_trans hem (hle' x hx)
        · intro x hx; exact List.mem_cons_of_mem _ hx
        · intro x hx hne
          rcases List.mem_cons.mp hx with rfl | hx
          · exact absurd rfl hne
          · exact hx
      · rw [if_neg hcmp] at h
        simp only [Option.some.injEq, Prod.mk.injEq] at h
        obtain ⟨hm, hr⟩ := h
        subst hm
        subst hr
        have hme : m'.1 ≤ e.1 := by
          unfold entryLE at hcmp
          have := of_decide_eq_false (Bool.of_not_eq_true hcmp)
          push_neg at this
          exact this.1
        refine ⟨List.mem_cons_of_mem _ hmem', by simpa using hlen', ?_, ?_, ?_⟩
        · intro x hx
          rcases List.mem_cons.mp hx with rfl | hx
          · exact hme
          · exact hle' x hx
        · intro x hx
          rcases List.mem_cons.mp hx with rfl | hx
          · exact List.mem_cons_self _ _
          · exact List.mem_cons_of_mem _ (hsub' x hx)
        · intro x hx hne
          rcases List.mem_cons.mp hx with rfl | hx
          · exact List.mem_cons_self _ _
          · exact List.mem_cons_of_mem _ (hrest' x hx hne)

/-! ## Lemmas about paths and walk costs -/

lemma IsPath.ne_nil {g : Graph} {s t : ℕ} {p : List ℕ} (h : IsPath g s t p) : p ≠ [] := by
  cases h with
  | refl => simp
  | snoc h he => simp

lemma IsPath.head_eq {g : Graph} {s t : ℕ} {p : List ℕ} (h : IsPath g s t p) :
    p.head? = some s := by
  induction h with
  | refl => rfl
  | @snoc u v q hq he ih =>
    cases q with
    | nil => cases hq.ne_nil rfl
    | cons a q' => simpa using ih

lemma IsPath.getLast_eq {g : Graph} {s t : ℕ} {p : List ℕ} (h : IsPath g s t p) :
    p.getLast? = some t := by
  cases h with
  | refl => rfl
  | snoc hq he => simp

lemma walkCost_snoc (w : ℕ → ℕ → ℚ) : ∀ (p : List ℕ) (u v : ℕ),
    p.getLast? = some u → walkCost w (p ++ [v]) = walkCost w p + w u v := by
  intro p
  induction p with
  | nil => intro u v h; cases h
  | cons a q ih =>
    intro u v h
    cases q with
    | nil =>
      obtain rfl : a = u := by simpa using h
      simp [walkCost]
    | cons b q' =>
      have hlast : (b :: q').getLast? = some u := by
        rw [← h]; simp [List.getLast?_cons_cons]
      have hih := ih u v hlast
      have h1 : walkCost w ((a :: b :: q') ++ [v]) =
          w a b + walkCost w ((b :: q') ++ [v]) := rfl
      have h2 : walkCost w (a :: b :: q') = w a b + walkCost w (b :: q') := rfl
      rw [h1, h2, hih]
      ring

lemma IsPath.cost_nonneg {g : Graph} {s t : ℕ} {p : List ℕ} {w : ℕ → ℕ → ℚ}
    (hw : ∀ u v, 0 ≤ w u v) (h : IsPath g s t p) : 0 ≤ walkCost w p := by
  induction h with
  | refl => simp [walkCost]
  | @snoc u v q hq he ih =>
    rw [walkCost_snoc w q u v hq.getLast_eq]
    exact add_nonneg ih (hw u v)

lemma IsPath.validWalk {g : Graph} {s t : ℕ} {p : List ℕ} (h : IsPath g s t p) :
    ValidWalk g s t p := by
  induction h with
  | refl => exact ⟨rfl, rfl, List.chain'_singleton s⟩
  | @snoc u v q hq he ih =>
    obtain ⟨hh, hl, hc⟩ := ih
    refine ⟨?_, ?_, ?_⟩
    · cases q with
      | nil => cases hq.ne_nil rfl
      | cons a q' => simpa using hh
    · simp
    · rw [List.chain'_append]
      refine ⟨hc, List.chain'_singleton v, ?_⟩
      intro x hx y hy
      obtain rfl : x = u := by rw [hq.getLast_eq] at hx; cases hx; rfl
      obtain rfl : y = v := by cases hy; rfl
      exact he

lemma validWalk_isPath {g : Graph} {s : ℕ} : ∀ {p : List ℕ} {t : ℕ},
    ValidWalk g s t p → IsPath g s t p := by
  intro p
  induction p using List.reverseRecOn with
  | nil => intro t h; cases h.1
  | append_singleton q a ih =>
    intro t h
    obtain ⟨hh, hl, hc⟩ := h
    have hat : a = t := by
      rw [List.getLast?_append_cons] at hl
      simpa using hl
    subst hat
    rcases q with _ | ⟨b, q'⟩
    · have has : a = s := by simpa using hh
      subst has
      exact IsPath.refl
    · rw [List.chain'_append] at hc
      obtain ⟨hc₁, _, hrel⟩ := hc
      have hqnn : (b :: q') ≠ [] := by simp
      obtain ⟨u, hu⟩ : ∃ u, (b :: q').getLast? = some u := by
        cases hgl : (b :: q').getLast? with
        | none => rw [List.getLast?_eq_none_iff] at hgl; cases hqnn hgl
        | some u => exact ⟨u, rfl⟩
      have hedge : g.Edge u a := hrel u hu a rfl
      have hwalk : ValidWalk g s u (b :: q') := ⟨by simpa using hh, hu, hc₁⟩
      exact (ih hwalk).snoc hedge

/-! ## Lemmas about `backtrackAux` -/

lemma backtrackAux_acc (prev : List (Option ℕ)) : ∀ (fuel i : ℕ) (acc : List ℕ),
    backtrackAux prev fuel i acc = backtrackAux prev fuel i [] ++ acc := by
  intro fuel
  induction fuel with
  | zero => intro i acc; rfl
  | succ fuel ih =>
    intro i acc
    cases hp : prev.getD i none with
    | none =>
      unfold backtrackAux
      rw [hp]
      rfl
    | some j =>
      unfold backtrackAux
      rw [hp]
      show backtrackAux prev fuel j (i :: acc) = backtrackAux prev fuel j [i] ++ acc
      rw [ih j (i :: acc), ih j [i]]
      simp

lemma backtrackAux_congr (prev₁ prev₂ : List (Option ℕ)) (Expl : ℕ → Prop)
    (hagree : ∀ w, Expl w → prev₁.getD w none = prev₂.getD w none)
    (hclosed : ∀ w j, Expl w → prev₁.getD w none = some j → Expl j) :
    ∀ (fuel i : ℕ) (acc : List ℕ), Expl i →
      backtrackAux prev₁ fuel i acc = backtrackAux prev₂ fuel i acc := by
  intro fuel
  induction fuel with
  | zero => intro i acc _; rfl
  | succ fuel ih =>
    intro i acc hi
    unfold backtrackAux
    rw [← hagree i hi]
    cases hp : prev₁.getD i none with
    | none => rfl
    | some j => exact ih j (i :: acc) (hclosed i j hi hp)

/-! ## Effect lemmas for `expandNbrs` and fuel sufficiency -/

lemma relaxStep_explored (cf : ℕ → ℕ → ℚ × List X × List Y) (bc : ℚ) (cur nb : ℕ)
    (s : DijkState X Y) : (relaxStep cf bc cur nb s).explored = s.explored := by
  unfold relaxStep
  split <;> rfl

lemma relaxStep_to_explore_len (cf : ℕ → ℕ → ℚ × List X × List Y) (bc : ℚ) (cur nb : ℕ)
    (s : DijkState X Y) :
    (relaxStep cf bc cur nb s).to_explore.length ≤ s.to_explore.length + 1 := by
  unfold relaxStep
  split
  · simp
  · simp

lemma expandNbrs_explored (cf : ℕ → ℕ → ℚ × List X × List Y) (bc : ℚ) (cur : ℕ) :
    ∀ (nbrs : List ℕ) (s : DijkState X Y),
      (expandNbrs cf bc cur nbrs s).1.explored = s.explored := by
  intro nbrs
  induction nbrs with
  | nil => intro s; rfl
  | cons nb rest ih =>
    intro s
    unfold expandNbrs
    by_cases hneg : (cf cur nb).1 < 0
    · rw [if_pos hneg]
      rfl
    · rw [if_neg hneg, ih, relaxStep_explored]
      rfl

lemma expandNbrs_to_explore_len (cf : ℕ → ℕ → ℚ × List X × List Y) (bc : ℚ) (cur : ℕ) :
    ∀ (nbrs : List ℕ) (s : DijkState X Y),
      (expandNbrs cf bc cur nbrs s).1.to_explore.length ≤
        s.to_explore.length + nbrs.length := by
  intro nbrs
  induction nbrs with
  | nil => intro s; simp [expandNbrs]
  | cons nb rest ih =>
    intro s
    unfold expandNbrs
    by_cases hneg : (cf cur nb).1 < 0
    · rw [if_pos hneg]
      show s.to_explore.length ≤ s.to_explore.length + (rest.length + 1)
      omega
    · rw [if_neg hneg]
      refine le_trans (ih _) ?_
      have h1 : (relaxStep cf bc cur nb (evalStep cf cur nb s)).to_explore.length ≤
          s.to_explore.length + 1 :=
        relaxStep_to_explore_len cf bc cur nb (evalStep cf cur nb s)
      simp only [List.length_cons]
      omega

lemma sum_filter_set (dg : ℕ → ℕ) (expl : List Bool) (cur : ℕ)
    (hexpl : expl.getD cur false = false) (hcur : cur < expl.length) :
    ∀ (l : List ℕ), l.Nodup → cur ∈ l →
    ((l.filter (fun i => !((expl.set cur true).getD i false))).map dg).sum + dg cur =
    ((l.filter (fun i => !(expl.getD i false))).map dg).sum := by
  intro l
  induction l with
  | nil => intro _ h; simp at h
  | cons a l' ih =>
    intro hnd hmem
    have hnd' : l'.Nodup := (List.nodup_cons.mp hnd).2
    have hna : a ∉ l' := (List.nodup_cons.mp hnd).1
    by_cases hac : a = cur
    · subst hac
      have hfilt : l'.filter (fun i => !((expl.set a true).getD i false)) =
          l'.filter (fun i => !(expl.getD i false)) := by
        apply List.filter_congr
        intro i hi
        have hia : i ≠ a := fun h => hna (h ▸ hi)
        rw [getD_set_ne _ _ _ _ _ hia]
      have hnew : ((expl.set a true).getD a false) = true :=
        getD_set_self _ _ _ _ hcur
      rw [List.filter_cons, List.filter_cons]
      rw [if_neg (by rw [hnew]; simp), if_pos (by rw [hexpl]; simp)]
      rw [hfilt, List.map_cons, List.sum_cons]
      exact Nat.add_comm _ _
    · have hmem' : cur ∈ l' := by
        rcases List.mem_cons.mp hmem with h | h
        · exact absurd h.symm hac
        · exact h
      have hsame : ((expl.set cur true).getD a false) = expl.getD a false :=
        getD_set_ne _ _ _ _ _ hac
      rw [List.filter_cons, List.filter_cons, hsame]
      by_cases hka : !(expl.getD a false)
      · rw [if_pos hka, if_pos hka]
        simp only [List.map_cons, List.sum_cons]
        rw [Nat.add_assoc, ih hnd' hmem']
      · rw [if_neg hka, if_neg hka]
        exact ih hnd' hmem'

/-! ### Case-unfolding lemmas for `dijkLoop` -/

lemma dijkLoop_pop_none {g : Graph} {cf : ℕ → ℕ → ℚ × List X × List Y} {goal fuel : ℕ}
    {s : DijkState X Y} (hpop : popMin s.to_explore = none) :
    dijkLoop g cf goal (fuel + 1) s = some (DijkOutcome.success ⊤ [], s) := by
  unfold dijkLoop
  rw [hpop]

lemma dijkLoop_pop_stale {g : Graph} {cf : ℕ → ℕ → ℚ × List X × List Y} {goal fuel : ℕ}
    {s : DijkState X Y} {bc : ℚ} {cur : ℕ} {rest : List (ℚ × ℕ)}
    (hpop : popMin s.to_explore = some ((bc, cur), rest))
    (hexp : s.explored.getD cur false = true) :
    dijkLoop g cf goal (fuel + 1) s =
      dijkLoop g cf goal fuel { s with to_explore := rest } := by
  conv_lhs => unfold dijkLoop
  simp only [hpop]
  rw [if_pos hexp]

lemma dijkLoop_pop_goal {g : Graph} {cf : ℕ → ℕ → ℚ × List X × List Y} {goal fuel : ℕ}
    {s : DijkState X Y} {bc : ℚ} {cur : ℕ} {rest : List (ℚ × ℕ)}
    (hpop : popMin s.to_explore = some ((bc, cur), rest))
    (hexp : s.explored.getD cur false = false) (hgoal : cur = goal) :
    dijkLoop g cf goal (fuel + 1) s =
      some (DijkOutcome.success (↑bc)
        (backtrack_indices cur (markPop s bc cur rest).prev), markPop s bc cur rest) := by
  unfold dijkLoop
  simp only [hpop]
  rw [if_neg (by rw [hexp]; simp), if_pos hgoal]

lemma dijkLoop_pop_expand {g : Graph} {cf : ℕ → ℕ → ℚ × List X × List Y} {goal fuel : ℕ}
    {s : DijkState X Y} {bc : ℚ} {cur : ℕ} {rest : List (ℚ × ℕ)}
    (hpop : popMin s.to_explore = some ((bc, cur), rest))
    (hexp : s.explored.getD cur false = false) (hgoal : cur ≠ goal) :
    dijkLoop g cf goal (fuel + 1) s =
      (match expandNbrs cf bc cur (g.neighbors cur) (markPop s bc cur rest) with
       | (s₂, true) => some (DijkOutcome.assertFail, s₂)
       | (s₂, false) => dijkLoop g cf goal fuel s₂) := by
  conv_lhs => unfold dijkLoop
  simp only [hpop]
  rw [if_neg (by rw [hexp]; simp), if_neg hgoal]

/-! ### Fuel sufficiency -/

lemma dijkLoop_isSome (g : Graph) (cf : ℕ → ℕ → ℚ × List X × List Y) (goal : ℕ) :
    ∀ (fuel : ℕ) (s : DijkState X Y), s.explored.length = g.n →
      dijkPhi g s < fuel → (dijkLoop g cf goal fuel s).isSome := by
  intro fuel
  induction fuel with
  | zero => intro s _ h; exact absurd h (Nat.not_lt_zero _)
  | succ fuel ih =>
    intro s hlen hphi
    cases hpop : popMin s.to_explore with
    | none => rw [dijkLoop_pop_none hpop]; rfl
    | some pr =>
      obtain ⟨⟨bc, cur⟩, rest⟩ := pr
      obtain ⟨hmem, hlenpop, hminle, hsub, hrmem⟩ := popMin_spec hpop
      by_cases hexp : s.explored.getD cur false = true
      · rw [dijkLoop_pop_stale hpop hexp]
        apply ih
        · exact hlen
        · unfold dijkPhi at hphi ⊢
          simp only at hphi ⊢
          omega
      · have hexp' : s.explored.getD cur false = false := by
          cases hb : s.explored.getD cur false
          · rfl
          · exact absurd hb hexp
        by_cases hgoal : cur = goal
        · rw [dijkLoop_pop_goal hpop hexp' hgoal]; rfl
        · rw [dijkLoop_pop_expand hpop hexp' hgoal]
          rcases hexpand : expandNbrs cf bc cur (g.neighbors cur)
              (markPop s bc cur rest) with ⟨s₂, b⟩
          cases b
          · simp only
            apply ih
            · have h1 : s₂.explored = (markPop s bc cur rest).explored := by
                have := expandNbrs_explored cf bc cur (g.neighbors cur)
                  (markPop s bc cur rest)
                rw [hexpand] at this
                exact this
              rw [h1]
              simpa [markPop] using hlen
            · have hexplored₂ : s₂.explored = s.explored.set cur true := by
                have := expandNbrs_explored cf bc cur (g.neighbors cur)
                  (markPop s bc cur rest)
                rw [hexpand] at this
                exact this
              have hte₂ : s₂.to_explore.length ≤ rest.length + (g.neighbors cur).length := by
                have := expandNbrs_to_explore_len cf bc cur (g.neighbors cur)
                  (markPop s bc cur rest)
                rw [hexpand] at this
                simpa [markPop] using this
              unfold dijkPhi at hphi ⊢
              rw [hexplored₂]
              by_cases hcurn : cur < g.n
              · have hmark := sum_filter_set (fun i => (g.neighbors i).length)
                  s.explored cur hexp' (by omega) (List.range g.n)
                  (List.nodup_range g.n) (List.mem_range.mpr hcurn)
                simp only at hmark
                omega
              · have hset : s.explored.set cur true = s.explored :=
                  List.set_eq_of_length_le (by omega)
                rw [hset]
                have hdeg : (g.neighbors cur).length = 0 := by
                  unfold Graph.neighbors
                  rw [getD_default _ _ _ (by unfold Graph.n at hcurn; omega)]
                  rfl
                omega
          · simp only
            rfl

/-! ## The search invariant -/

/-- `c` is the minimum cost of a start-to-`t` path, and it is attained. -/
def IsShortest (g : Graph) (w : ℕ → ℕ → ℚ) (start t : ℕ) (c : ℚ) : Prop :=
  (∃ p, IsPath g start t p ∧ walkCost w p = c) ∧
  ∀ q, IsPath g start t q → c ≤ walkCost w q

lemma nodup_lt_length_le {l : List ℕ} {n : ℕ} (hnd : l.Nodup) (hlt : ∀ x ∈ l, x < n) :
    l.length ≤ n := by
  classical
  have h1 : l.toFinset.card = l.length := List.toFinset_card_of_nodup hnd
  have h2 : l.toFinset ⊆ Finset.range n := by
    intro x hx
    rw [Finset.mem_range]
    exact hlt x (List.mem_toFinset.mp hx)
  calc l.length = l.toFinset.card := h1.symm
    _ ≤ (Finset.range n).card := Finset.card_le_card h2
    _ = n := Finset.card_range n

lemma neighbor_lt {g : Graph} (hWF : g.WF) {cur nb : ℕ} (hcur : cur < g.n)
    (hnb : nb ∈ g.neighbors cur) : nb < g.n := by
  have hmem : g.nbrs.getD cur [] ∈ g.nbrs := by
    rw [List.getD_eq_getElem _ _ hcur]
    exact List.getElem_mem hcur
  exact hWF _ hmem nb hnb

lemma backtrackAux_replicate_none (n : ℕ) : ∀ (N i : ℕ) (acc : List ℕ),
    backtrackAux (List.replicate n (none : Option ℕ)) N i acc = i :: acc := by
  intro N i acc
  have hget : (List.replicate n (none : Option ℕ)).getD i none = none := by
    rcases Nat.lt_or_ge i n with h | h
    · exact getD_replicate _ _ _ _ h
    · exact getD_default _ _ _ (by simpa using h)
  cases N with
  | zero => rfl
  | succ N =>
    unfold backtrackAux
    rw [hget]

/-- The invariant maintained by `dijkLoop` between iterations. -/
structure DijkInv (g : Graph) (cf : ℕ → ℕ → ℚ × List X × List Y)
    (start goal : ℕ) (s : DijkState X Y) : Prop where
  len_explored : s.explored.length = g.n
  len_mc : s.min_cost.length = g.n
  len_prev : s.prev.length = g.n
  heap_lt : ∀ e ∈ s.to_explore, e.2 < g.n
  heap_path : ∀ e ∈ s.to_explore,
    ∃ p, IsPath g start e.2 p ∧ walkCost (fun a b => (cf a b).1) p = e.1
  pops_shortest : ∀ e ∈ s.pops, IsShortest g (fun a b => (cf a b).1) start e.2 e.1
  pops_explored : ∀ e ∈ s.pops, s.explored.getD e.2 false = true
  pops_lt : ∀ e ∈ s.pops, e.2 < g.n
  pops_nodup : (s.pops.map Prod.snd).Nodup
  explored_pops : ∀ v : ℕ, v < g.n → s.explored.getD v false = true →
    ∃ c, (c, v) ∈ s.pops
  goal_unexplored : s.explored.getD goal false = false
  closure : ∀ e ∈ s.pops, ∀ nb ∈ g.neighbors e.2, s.explored.getD nb false = false →
    ∃ c', (c', nb) ∈ s.to_explore ∧ c' ≤ e.1 + (cf e.2 nb).1
  mc_entry : ∀ v : ℕ, v < g.n → s.explored.getD v false = false →
    ∀ m : ℚ, s.min_cost.getD v none = some m → (m, v) ∈ s.to_explore
  mc_le : ∀ e ∈ s.to_explore, e.2 ≠ start → s.explored.getD e.2 false = false →
    ∃ m : ℚ, s.min_cost.getD e.2 none = some m ∧ m ≤ e.1
  init_or : (s.explored.getD start false = false ∧ s = dijkInit g start) ∨
    s.explored.getD start false = true
  prev_start : s.prev.getD start none = none
  prev_mc : ∀ v : ℕ, v < g.n → s.explored.getD v false = false →
    ∀ m : ℚ, s.min_cost.getD v none = some m →
      ∃ pu d, s.prev.getD v none = some pu ∧ (d, pu) ∈ s.pops ∧ g.Edge pu v ∧
        m = d + (cf pu v).1
  prev_explored : ∀ v : ℕ, s.explored.getD v false = true →
    ∀ pu : ℕ, s.prev.getD v none = some pu → s.explored.getD pu false = true
  pops_path : ∀ e ∈ s.pops, ∀ N : ℕ, s.pops.length ≤ N →
    IsPath g start e.2 (backtrackAux s.prev N e.2 []) ∧
      walkCost (fun a b => (cf a b).1) (backtrackAux s.prev N e.2 []) = e.1

/-- The initial state satisfies the invariant (for an in-range start distinct
from no particular goal, with the goal unexplored since nothing is). -/
lemma dijkInv_init (g : Graph) (cf : ℕ → ℕ → ℚ × List X × List Y)
    (start goal : ℕ) (hstart : start < g.n) :
    DijkInv g cf start goal (dijkInit g start : DijkState X Y) := by
  have hexp : ∀ v : ℕ, (dijkInit g start : DijkState X Y).explored.getD v false = false := by
    intro v
    show (List.replicate g.n false).getD v false = false
    rcases Nat.lt_or_ge v g.n with h | h
    · exact getD_replicate _ _ _ _ h
    · exact getD_default _ _ _ (by simpa using h)
  have hmc : ∀ v : ℕ, (dijkInit g start : DijkState X Y).min_cost.getD v none = none := by
    intro v
    show (List.replicate g.n (none : Option ℚ)).getD v none = none
    rcases Nat.lt_or_ge v g.n with h | h
    · exact getD_replicate _ _ _ _ h
    · exact getD_default _ _ _ (by simpa using h)
  refine ⟨by simp [dijkInit], by simp [dijkInit], by simp [dijkInit], ?_, ?_, ?_, ?_, ?_,
    ?_, ?_, ?_, ?_, ?_, ?_, ?_, ?_, ?_, ?_, ?_⟩
  · intro e he
    obtain rfl : e = ((0 : ℚ), start) := by simpa [dijkInit] using he
    exact hstart
  · intro e he
    obtain rfl : e = ((0 : ℚ), start) := by simpa [dijkInit] using he
    exact ⟨[start], IsPath.refl, rfl⟩
  · intro e he; simp [dijkInit] at he
  · intro e he; simp [dijkInit] at he
  · intro e he; simp [dijkInit] at he
  · simp [dijkInit]
  · intro v _ hv; rw [hexp v] at hv; cases hv
  · exact hexp goal
  · intro e he; simp [dijkInit] at he
  · intro v _ _ m hm; rw [hmc v] at hm; cases hm
  · intro e he hne _
    obtain rfl : e = ((0 : ℚ), start) := by simpa [dijkInit] using he
    exact absurd rfl hne
  · exact Or.inl ⟨hexp start, rfl⟩
  · show (List.replicate g.n (none : Option ℕ)).getD start none = none
    exact getD_replicate _ _ _ _ hstart
  · intro v _ _ m hm; rw [hmc v] at hm; cases hm
  · intro v hv; rw [hexp v] at hv; cases hv
  · intro e he; simp [dijkInit] at he

/-! ### Pop-time lemmas (the cut argument) -/

lemma popped_min_le {g : Graph} {cf : ℕ → ℕ → ℚ × List X × List Y}
    {start goal : ℕ} {s : DijkState X Y} {bc : ℚ} {cur : ℕ} {rest : List (ℚ × ℕ)}
    (hw : ∀ a b, 0 ≤ (cf a b).1)
    (hinv : DijkInv g cf start goal s)
    (hpop : popMin s.to_explore = some ((bc, cur), rest)) :
    ∀ (t : ℕ) (q : List ℕ), IsPath g start t q → s.explored.getD t false = false →
      bc ≤ walkCost (fun a b => (cf a b).1) q := by
  intro t q hq
  induction hq with
  | refl =>
    intro hunex
    rcases hinv.init_or with ⟨_, hs⟩ | hsexp
    · rw [hs] at hpop
      rw [show (dijkInit g start : DijkState X Y).to_explore = [((0:ℚ), start)]
        from rfl] at hpop
      rw [show popMin [((0:ℚ), start)] = some (((0:ℚ), start), []) from rfl] at hpop
      simp only [Option.some.injEq, Prod.mk.injEq] at hpop
      obtain ⟨⟨hbc0, _⟩, _⟩ := hpop
      rw [← hbc0]
      show (0 : ℚ) ≤ walkCost (fun a b => (cf a b).1) [start]
      simp [walkCost]
    · rw [hsexp] at hunex; cases hunex
  | @snoc pu pv p hp hedge ih =>
    intro hunex
    have hcost : walkCost (fun a b => (cf a b).1) (p ++ [pv]) =
        walkCost (fun a b => (cf a b).1) p + (cf pu pv).1 :=
      walkCost_snoc _ _ _ _ hp.getLast_eq
    cases hbu : s.explored.getD pu false with
    | true =>
      have hultn : pu < g.n := hedge.1
      obtain ⟨d, hdmem⟩ := hinv.explored_pops pu hultn hbu
      have hshort := hinv.pops_shortest _ hdmem
      have hd_le : d ≤ walkCost (fun a b => (cf a b).1) p := hshort.2 p hp
      obtain ⟨c', hc'mem, hc'le⟩ := hinv.closure _ hdmem pv hedge.2 hunex
      have hbc_le : bc ≤ c' := (popMin_spec hpop).2.2.1 _ hc'mem
      rw [hcost]
      simp only at hc'le
      linarith
    | false =>
      have hle := ih hbu
      have hwnn : (0:ℚ) ≤ (cf pu pv).1 := hw pu pv
      rw [hcost]
      linarith

lemma empty_heap_no_path {g : Graph} {cf : ℕ → ℕ → ℚ × List X × List Y}
    {start goal : ℕ} {s : DijkState X Y}
    (hinv : DijkInv g cf start goal s) (hempty : s.to_explore = []) :
    ∀ (t : ℕ) (q : List ℕ), IsPath g start t q →
      s.explored.getD t false = false → False := by
  intro t q hq
  induction hq with
  | refl =>
    intro hunex
    rcases hinv.init_or with ⟨_, hs⟩ | hsexp
    · rw [hs] at hempty
      cases hempty
    · rw [hsexp] at hunex; cases hunex
  | @snoc pu pv p hp hedge ih =>
    intro hunex
    cases hbu : s.explored.getD pu false with
    | true =>
      have hultn : pu < g.n := hedge.1
      obtain ⟨d, hdmem⟩ := hinv.explored_pops pu hultn hbu
      obtain ⟨c', hc'mem, _⟩ := hinv.closure _ hdmem pv hedge.2 hunex
      rw [hempty] at hc'mem
      cases hc'mem
    | false => exact ih hbu

lemma popped_prev {g : Graph} {cf : ℕ → ℕ → ℚ × List X × List Y}
    {start goal : ℕ} {s : DijkState X Y} {bc : ℚ} {cur : ℕ} {rest : List (ℚ × ℕ)}
    (hinv : DijkInv g cf start goal s)
    (hpop : popMin s.to_explore = some ((bc, cur), rest))
    (hexp : s.explored.getD cur false = false) :
    (s = dijkInit g start ∧ bc = 0 ∧ cur = start) ∨
    (cur ≠ start ∧ ∃ pu d, s.prev.getD cur none = some pu ∧ (d, pu) ∈ s.pops ∧
      g.Edge pu cur ∧ bc = d + (cf pu cur).1) := by
  rcases hinv.init_or with ⟨_, hs⟩ | hsexp
  · left
    refine ⟨hs, ?_, ?_⟩
    · rw [hs] at hpop
      rw [show (dijkInit g start : DijkState X Y).to_explore = [((0:ℚ), start)]
        from rfl] at hpop
      rw [show popMin [((0:ℚ), start)] = some (((0:ℚ), start), []) from rfl] at hpop
      simp only [Option.some.injEq, Prod.mk.injEq] at hpop
      exact hpop.1.1.symm
    · rw [hs] at hpop
      rw [show (dijkInit g start : DijkState X Y).to_explore = [((0:ℚ), start)]
        from rfl] at hpop
      rw [show popMin [((0:ℚ), start)] = some (((0:ℚ), start), []) from rfl] at hpop
      simp only [Option.some.injEq, Prod.mk.injEq] at hpop
      exact hpop.1.2.symm
  · right
    have hne : cur ≠ start := by
      intro h
      rw [h, hsexp] at hexp
      cases hexp
    obtain ⟨hmem, _, hminle, _, _⟩ := popMin_spec hpop
    have hcurlt : cur < g.n := hinv.heap_lt _ hmem
    obtain ⟨m, hmc, hmle⟩ := hinv.mc_le _ hmem hne hexp
    have hmentry := hinv.mc_entry cur hcurlt hexp m hmc
    have hbcm : bc ≤ m := hminle _ hmentry
    have hmeq : m = bc := le_antisymm hmle hbcm
    obtain ⟨pu, d, hprev, hpmem, hedge, hmval⟩ := hinv.prev_mc cur hcurlt hexp m hmc
    exact ⟨hne, pu, d, hprev, hpmem, hedge, by rw [← hmeq]; exact hmval⟩

lemma popped_shortest {g : Graph} {cf : ℕ → ℕ → ℚ × List X × List Y}
    {start goal : ℕ} {s : DijkState X Y} {bc : ℚ} {cur : ℕ} {rest : List (ℚ × ℕ)}
    (hw : ∀ a b, 0 ≤ (cf a b).1)
    (hinv : DijkInv g cf start goal s)
    (hpop : popMin s.to_explore = some ((bc, cur), rest))
    (hexp : s.explored.getD cur false = false) :
    IsShortest g (fun a b => (cf a b).1) start cur bc := by
  constructor
  · exact hinv.heap_path _ (popMin_spec hpop).1
  · intro q hq
    exact popped_min_le hw hinv hpop cur q hq hexp

lemma dijkInv_stale {g : Graph} {cf : ℕ → ℕ → ℚ × List X × List Y}
    {start goal : ℕ} {s : DijkState X Y} {bc : ℚ} {cur : ℕ} {rest : List (ℚ × ℕ)}
    (hinv : DijkInv g cf start goal s)
    (hpop : popMin s.to_explore = some ((bc, cur), rest))
    (hexp : s.explored.getD cur false = true) :
    DijkInv g cf start goal { s with to_explore := rest } := by
  obtain ⟨hmem, hlenpop, hminle, hsub, hrmem⟩ := popMin_spec hpop
  refine ⟨hinv.len_explored, hinv.len_mc, hinv.len_prev, ?_, ?_, hinv.pops_shortest,
    hinv.pops_explored, hinv.pops_lt, hinv.pops_nodup, hinv.explored_pops,
    hinv.goal_unexplored, ?_, ?_, ?_, ?_, hinv.prev_start, hinv.prev_mc,
    hinv.prev_explored, hinv.pops_path⟩
  · intro e he
    exact hinv.heap_lt _ (hsub _ he)
  · intro e he
    exact hinv.heap_path _ (hsub _ he)
  · intro e he nb hnb hune
    obtain ⟨c', hc'm, hle⟩ := hinv.closure e he nb hnb hune
    have hne : (c', nb) ≠ (bc, cur) := by
      intro hh
      have : nb = cur := congrArg Prod.snd hh
      rw [this, hexp] at hune
      cases hune
    exact ⟨c', hrmem _ hc'm hne, hle⟩
  · intro v hvlt hvune m hm
    have hw := hinv.mc_entry v hvlt hvune m hm
    have hne : (m, v) ≠ (bc, cur) := by
      intro hh
      have : v = cur := congrArg Prod.snd hh
      rw [this, hexp] at hvune
      cases hvune
    exact hrmem _ hw hne
  · intro e he hne hune
    exact hinv.mc_le _ (hsub _ he) hne hune
  · rcases hinv.init_or with ⟨hstf, hs⟩ | hsexp
    · exfalso
      rw [hs] at hexp
      have : ∀ v : ℕ, (dijkInit g start : DijkState X Y).explored.getD v false = false := by
        intro v
        show (List.replicate g.n false).getD v false = false
        rcases Nat.lt_or_ge v g.n with h | h
        · exact getD_replicate _ _ _ _ h
        · exact getD_default _ _ _ (by simpa using h)
      rw [this cur] at hexp
      cases hexp
    · exact Or.inr hsexp

lemma popped_backtrack {g : Graph} {cf : ℕ → ℕ → ℚ × List X × List Y}
    {start goal : ℕ} {s : DijkState X Y} {bc : ℚ} {cur : ℕ} {rest : List (ℚ × ℕ)}
    (hinv : DijkInv g cf start goal s)
    (hpop : popMin s.to_explore = some ((bc, cur), rest))
    (hexp : s.explored.getD cur false = false) :
    ∀ N : ℕ, s.pops.length + 1 ≤ N →
      IsPath g start cur (backtrackAux s.prev N cur []) ∧
        walkCost (fun a b => (cf a b).1) (backtrackAux s.prev N cur []) = bc := by
  intro N hN
  rcases popped_prev hinv hpop hexp with ⟨hs, hbc0, hcs⟩ | ⟨_, pu, d, hprev, hpmem, hedge, hbc⟩
  · subst hcs
    subst hbc0
    have : s.prev = List.replicate g.n (none : Option ℕ) := by rw [hs]; rfl
    rw [this, backtrackAux_replicate_none]
    exact ⟨IsPath.refl, by simp [walkCost]⟩
  · obtain ⟨N', rfl⟩ : ∃ N', N = N' + 1 := ⟨N - 1, by omega⟩
    have hstep1 : backtrackAux s.prev (N' + 1) cur [] =
        backtrackAux s.prev N' pu [cur] := by
      show (match s.prev.getD cur none with
        | none => [cur]
        | some j => backtrackAux s.prev N' j [cur]) = backtrackAux s.prev N' pu [cur]
      rw [hprev]
    have hstep : backtrackAux s.prev (N' + 1) cur [] =
        backtrackAux s.prev N' pu [] ++ [cur] := by
      rw [hstep1]
      exact backtrackAux_acc s.prev N' pu [cur]
    obtain ⟨hpath, hcost⟩ := hinv.pops_path _ hpmem N' (by omega)
    rw [hstep]
    refine ⟨hpath.snoc hedge, ?_⟩
    rw [walkCost_snoc _ _ _ _ hpath.getLast_eq, hcost]
    exact hbc.symm

/-- The invariant holding while the neighbor loop of one expansion is running:
like `DijkInv`, except that the frontier-closure obligation of the freshly
expanded entry `(bc, cur)` is still pending for the neighbors in `todo`, and
`start` is definitely explored (the first pop always accepts `start`). -/
structure MidInv (g : Graph) (cf : ℕ → ℕ → ℚ × List X × List Y)
    (start goal : ℕ) (bc : ℚ) (cur : ℕ) (todo : List ℕ) (s : DijkState X Y) : Prop where
  len_explored : s.explored.length = g.n
  len_mc : s.min_cost.length = g.n
  len_prev : s.prev.length = g.n
  heap_lt : ∀ e ∈ s.to_explore, e.2 < g.n
  heap_path : ∀ e ∈ s.to_explore,
    ∃ p, IsPath g start e.2 p ∧ walkCost (fun a b => (cf a b).1) p = e.1
  pops_shortest : ∀ e ∈ s.pops, IsShortest g (fun a b => (cf a b).1) start e.2 e.1
  pops_explored : ∀ e ∈ s.pops, s.explored.getD e.2 false = true
  pops_lt : ∀ e ∈ s.pops, e.2 < g.n
  pops_nodup : (s.pops.map Prod.snd).Nodup
  explored_pops : ∀ v : ℕ, v < g.n → s.explored.getD v false = true →
    ∃ c, (c, v) ∈ s.pops
  goal_unexplored : s.explored.getD goal false = false
  closure : ∀ e ∈ s.pops, ∀ nb ∈ g.neighbors e.2, s.explored.getD nb false = false →
    (e = (bc, cur) ∧ nb ∈ todo) ∨
    ∃ c', (c', nb) ∈ s.to_explore ∧ c' ≤ e.1 + (cf e.2 nb).1
  mc_entry : ∀ v : ℕ, v < g.n → s.explored.getD v false = false →
    ∀ m : ℚ, s.min_cost.getD v none = some m → (m, v) ∈ s.to_explore
  mc_le : ∀ e ∈ s.to_explore, e.2 ≠ start → s.explored.getD e.2 false = false →
    ∃ m : ℚ, s.min_cost.getD e.2 none = some m ∧ m ≤ e.1
  start_explored : s.explored.getD start false = true
  prev_start : s.prev.getD start none = none
  prev_mc : ∀ v : ℕ, v < g.n → s.explored.getD v false = false →
    ∀ m : ℚ, s.min_cost.getD v none = some m →
      ∃ pu d, s.prev.getD v none = some pu ∧ (d, pu) ∈ s.pops ∧ g.Edge pu v ∧
        m = d + (cf pu v).1
  prev_explored : ∀ v : ℕ, s.explored.getD v false = true →
    ∀ pu : ℕ, s.prev.getD v none = some pu → s.explored.getD pu false = true
  pops_path : ∀ e ∈ s.pops, ∀ N : ℕ, s.pops.length ≤ N →
    IsPath g start e.2 (backtrackAux s.prev N e.2 []) ∧
      walkCost (fun a b => (cf a b).1) (backtrackAux s.prev N e.2 []) = e.1
  cur_pop : (bc, cur) ∈ s.pops

/-- Accepting an unexplored non-goal pop establishes the mid-expansion
invariant with the full neighbor list still pending. -/
lemma midInv_markPop {g : Graph} {cf : ℕ → ℕ → ℚ × List X × List Y}
    {start goal : ℕ} {s : DijkState X Y} {bc : ℚ} {cur : ℕ} {rest : List (ℚ × ℕ)}
    (hw : ∀ a b, 0 ≤ (cf a b).1)
    (hinv : DijkInv g cf start goal s)
    (hpop : popMin s.to_explore = some ((bc, cur), rest))
    (hexp : s.explored.getD cur false = false) (hgoal : cur ≠ goal) :
    MidInv g cf start goal bc cur (g.neighbors cur) (markPop s bc cur rest) := by
  obtain ⟨hmem, hlenpop, hminle, hsub, hrmem⟩ := popMin_spec hpop
  have hcurlt : cur < g.n := hinv.heap_lt _ hmem
  have hset_self : (s.explored.set cur true).getD cur false = true :=
    getD_set_self _ _ _ _ (by rw [hinv.len_explored]; exact hcurlt)
  have hset_ne : ∀ v : ℕ, v ≠ cur →
      (s.explored.set cur true).getD v false = s.explored.getD v false := by
    intro v hv
    exact getD_set_ne _ _ _ _ _ hv
  have hmono : ∀ v : ℕ, s.explored.getD v false = true →
      (s.explored.set cur true).getD v false = true := by
    intro v hvv
    by_cases hvc : v = cur
    · rw [hvc]; exact hset_self
    · rw [hset_ne v hvc]; exact hvv
  have hunex_new : ∀ v : ℕ, (s.explored.set cur true).getD v false = false →
      v ≠ cur ∧ s.explored.getD v false = false := by
    intro v hvv
    by_cases hvc : v = cur
    · rw [hvc, hset_self] at hvv; cases hvv
    · exact ⟨hvc, by rw [← hset_ne v hvc]; exact hvv⟩
  have hshort := popped_shortest hw hinv hpop hexp
  refine ⟨by simpa [markPop] using hinv.len_explored, hinv.len_mc, hinv.len_prev,
    ?_, ?_, ?_, ?_, ?_, ?_, ?_, ?_, ?_, ?_, ?_, ?_, hinv.prev_start, ?_, ?_, ?_, ?_⟩
  · intro e he
    exact hinv.heap_lt _ (hsub _ he)
  · intro e he
    exact hinv.heap_path _ (hsub _ he)
  · intro e he
    rcases List.mem_append.mp he with hold | hnew
    · exact hinv.pops_shortest _ hold
    · obtain rfl : e = (bc, cur) := by simpa using hnew
      exact hshort
  · intro e he
    rcases List.mem_append.mp he with hold | hnew
    · exact hmono _ (hinv.pops_explored _ hold)
    · obtain rfl : e = (bc, cur) := by simpa using hnew
      exact hset_self
  · intro e he
    rcases List.mem_append.mp he with hold | hnew
    · exact hinv.pops_lt _ hold
    · obtain rfl : e = (bc, cur) := by simpa using hnew
      exact hcurlt
  · show ((s.pops ++ [(bc, cur)]).map Prod.snd).Nodup
    rw [List.map_append]
    rw [List.nodup_append]
    refine ⟨hinv.pops_nodup, by simp, ?_⟩
    intro a ha hb
    obtain rfl : a = cur := by simpa using hb
    obtain ⟨e, hemem, hesnd⟩ := List.mem_map.mp ha
    have := hinv.pops_explored _ hemem
    rw [hesnd, hexp] at this
    cases this
  · intro v hvlt hvexp
    simp only [markPop] at hvexp ⊢
    by_cases hvc : v = cur
    · exact ⟨bc, by rw [hvc]; exact List.mem_append_right _ (by simp)⟩
    · rw [hset_ne v hvc] at hvexp
      obtain ⟨c, hc⟩ := hinv.explored_pops v hvlt hvexp
      exact ⟨c, List.mem_append_left _ hc⟩
  · show (s.explored.set cur true).getD goal false = false
    rw [hset_ne goal (fun h => hgoal h.symm)]
    exact hinv.goal_unexplored
  · intro e he nb hnb hune
    obtain ⟨hnbc, hnbold⟩ := hunex_new nb hune
    rcases List.mem_append.mp he with hold | hnew
    · obtain ⟨c', hc'm, hle⟩ := hinv.closure e hold nb hnb hnbold
      refine Or.inr ⟨c', hrmem _ hc'm ?_, hle⟩
      intro hh
      exact hnbc (congrArg Prod.snd hh)
    · obtain rfl : e = (bc, cur) := by simpa using hnew
      exact Or.inl ⟨rfl, hnb⟩
  · intro v hvlt hvune m hm
    obtain ⟨hvc, hvold⟩ := hunex_new v hvune
    have hwit := hinv.mc_entry v hvlt hvold m hm
    refine hrmem _ hwit ?_
    intro hh
    exact hvc (congrArg Prod.snd hh)
  · intro e he hne hune
    obtain ⟨_, hold⟩ := hunex_new e.2 hune
    exact hinv.mc_le _ (hsub _ he) hne hold
  · show (s.explored.set cur true).getD start false = true
    by_cases hsc : start = cur
    · rw [hsc]; exact hset_self
    · rcases hinv.init_or with ⟨_, hs⟩ | hsexp
      · exfalso
        rw [hs] at hpop
        rw [show (dijkInit g start : DijkState X Y).to_explore = [((0:ℚ), start)]
          from rfl] at hpop
        rw [show popMin [((0:ℚ), start)] = some (((0:ℚ), start), []) from rfl] at hpop
        simp only [Option.some.injEq, Prod.mk.injEq] at hpop
        exact hsc hpop.1.2
      · rw [hset_ne start hsc]
        exact hsexp
  · intro v hvlt hvune m hm
    obtain ⟨hvc, hvold⟩ := hunex_new v hvune
    obtain ⟨pu, d, hprev, hpmem, hedge, hmval⟩ := hinv.prev_mc v hvlt hvold m hm
    exact ⟨pu, d, hprev, List.mem_append_left _ hpmem, hedge, hmval⟩
  · intro v hvexp pu hprev
    simp only [markPop] at hvexp hprev ⊢
    by_cases hvc : v = cur
    · subst hvc
      rcases popped_prev hinv hpop hexp with ⟨_, _, hcs⟩ | ⟨_, pu', d, hprev', hpmem', _, _⟩
      · subst hcs
        rw [hinv.prev_start] at hprev
        cases hprev
      · rw [hprev'] at hprev
        obtain rfl : pu' = pu := by simpa using hprev
        exact hmono _ (hinv.pops_explored _ hpmem')
    · rw [hset_ne v hvc] at hvexp
      exact hmono _ (hinv.prev_explored v hvexp pu hprev)
  · intro e he N hN
    simp only [markPop] at he hN ⊢
    have hlen' : (s.pops ++ [(bc, cur)]).length = s.pops.length + 1 := by simp
    rcases List.mem_append.mp he with hold | hnew
    · exact hinv.pops_path _ hold N (by rw [hlen'] at hN; omega)
    · obtain rfl : e = (bc, cur) := by simpa using hnew
      exact popped_backtrack hinv hpop hexp N (by rw [hlen'] at hN; omega)
  · exact List.mem_append_right _ (by simp)

lemma midInv_evalStep {g : Graph} {cf : ℕ → ℕ → ℚ × List X × List Y}
    {start goal : ℕ} {bc : ℚ} {cur : ℕ} {todo : List ℕ} {nb : ℕ} {s : DijkState X Y}
    (hmid : MidInv g cf start goal bc cur todo s) :
    MidInv g cf start goal bc cur todo (evalStep cf cur nb s) :=
  ⟨hmid.len_explored, hmid.len_mc, hmid.len_prev, hmid.heap_lt, hmid.heap_path,
   hmid.pops_shortest, hmid.pops_explored, hmid.pops_lt, hmid.pops_nodup,
   hmid.explored_pops, hmid.goal_unexplored, hmid.closure, hmid.mc_entry, hmid.mc_le,
   hmid.start_explored, hmid.prev_start, hmid.prev_mc, hmid.prev_explored,
   hmid.pops_path, hmid.cur_pop⟩

lemma midInv_relaxStep {g : Graph} {cf : ℕ → ℕ → ℚ × List X × List Y}
    {start goal : ℕ} {bc : ℚ} {cur nb : ℕ} {todo : List ℕ} {s : DijkState X Y}
    (hWF : g.WF)
    (hmid : MidInv g cf start goal bc cur (nb :: todo) s)
    (hnbmem : nb ∈ g.neighbors cur) :
    MidInv g cf start goal bc cur todo (relaxStep cf bc cur nb s) := by
  have hcurlt : cur < g.n := hmid.pops_lt _ hmid.cur_pop
  have hnblt : nb < g.n := neighbor_lt hWF hcurlt hnbmem
  unfold relaxStep
  by_cases hc : (!(s.explored.getD nb false)
      && ltOpt (bc + (cf cur nb).1) (s.min_cost.getD nb none)) = true
  · rw [if_pos hc]
    obtain ⟨hnbexp', hlt⟩ := Bool.and_eq_true_iff.mp hc
    have hnbexp : s.explored.getD nb false = false := by
      cases hb : s.explored.getD nb false
      · rfl
      · rw [hb] at hnbexp'; cases hnbexp'
    have hnb_ne_start : nb ≠ start := by
      intro h
      rw [h, hmid.start_explored] at hnbexp
      cases hnbexp
    have hmcself : (s.min_cost.set nb (some (bc + (cf cur nb).1))).getD nb none =
        some (bc + (cf cur nb).1) :=
      getD_set_self _ _ _ _ (by rw [hmid.len_mc]; exact hnblt)
    have hprevself : (s.prev.set nb (some cur)).getD nb none = some cur :=
      getD_set_self _ _ _ _ (by rw [hmid.len_prev]; exact hnblt)
    refine ⟨hmid.len_explored, ?_, ?_, ?_, ?_, hmid.pops_shortest, hmid.pops_explored,
      hmid.pops_lt, hmid.pops_nodup, hmid.explored_pops, hmid.goal_unexplored,
      ?_, ?_, ?_, hmid.start_explored, ?_, ?_, ?_, ?_, hmid.cur_pop⟩
    · show (s.min_cost.set nb (some (bc + (cf cur nb).1))).length = g.n
      rw [List.length_set]
      exact hmid.len_mc
    · show (s.prev.set nb (some cur)).length = g.n
      rw [List.length_set]
      exact hmid.len_prev
    · intro e he
      rcases List.mem_append.mp he with hold | hnew
      · exact hmid.heap_lt _ hold
      · obtain rfl : e = (bc + (cf cur nb).1, nb) := by simpa using hnew
        exact hnblt
    · intro e he
      rcases List.mem_append.mp he with hold | hnew
      · exact hmid.heap_path _ hold
      · obtain rfl : e = (bc + (cf cur nb).1, nb) := by simpa using hnew
        obtain ⟨p, hp, hcost⟩ := (hmid.pops_shortest _ hmid.cur_pop).1
        refine ⟨p ++ [nb], hp.snoc ⟨hcurlt, hnbmem⟩, ?_⟩
        rw [walkCost_snoc _ _ _ _ hp.getLast_eq, hcost]
    · intro e he nb' hnb' hune
      rcases hmid.closure e he nb' hnb' hune with ⟨heq, hpend⟩ | ⟨c', hc'm, hle⟩
      · rcases List.mem_cons.mp hpend with rfl | hpend'
        · subst heq
          exact Or.inr ⟨bc + (cf cur nb').1,
            List.mem_append_right _ (by simp), le_refl _⟩
        · exact Or.inl ⟨heq, hpend'⟩
      · exact Or.inr ⟨c', List.mem_append_left _ hc'm, hle⟩
    · intro v' hvlt hvune m hm
      by_cases hvnb : v' = nb
      · subst hvnb
        rw [hmcself] at hm
        obtain rfl : bc + (cf cur v').1 = m := by simpa using hm
        exact List.mem_append_right _ (by simp)
      · rw [getD_set_ne _ _ _ _ _ hvnb] at hm
        exact List.mem_append_left _ (hmid.mc_entry v' hvlt hvune m hm)
    · intro e he hne hune
      rcases List.mem_append.mp he with hold | hnew
      · by_cases henb : e.2 = nb
        · obtain ⟨m, hmcv, hmle⟩ := hmid.mc_le _ hold hne hune
          rw [henb] at hmcv
          have hltm : bc + (cf cur nb).1 < m := by
            rw [hmcv] at hlt
            exact of_decide_eq_true hlt
          refine ⟨bc + (cf cur nb).1, ?_, ?_⟩
          · rw [henb]
            exact hmcself
          · linarith
        · refine ⟨?_, ?_, ?_⟩
          · exact (hmid.mc_le _ hold hne hune).choose
          · rw [getD_set_ne _ _ _ _ _ henb]
            exact (hmid.mc_le _ hold hne hune).choose_spec.1
          · exact (hmid.mc_le _ hold hne hune).choose_spec.2
      · obtain rfl : e = (bc + (cf cur nb).1, nb) := by simpa using hnew
        exact ⟨bc + (cf cur nb).1, hmcself, le_refl _⟩
    · show (s.prev.set nb (some cur)).getD start none = none
      rw [getD_set_ne _ _ _ _ _ (Ne.symm hnb_ne_start)]
      exact hmid.prev_start
    · intro v' hvlt hvune m hm
      by_cases hvnb : v' = nb
      · subst hvnb
        rw [hmcself] at hm
        obtain rfl : bc + (cf cur v').1 = m := by simpa using hm
        exact ⟨cur, bc, hprevself, hmid.cur_pop, ⟨hcurlt, hnbmem⟩, rfl⟩
      · rw [getD_set_ne _ _ _ _ _ hvnb] at hm
        obtain ⟨pu, d, hprev, hpmem, hedge, hmval⟩ := hmid.prev_mc v' hvlt hvune m hm
        refine ⟨pu, d, ?_, hpmem, hedge, hmval⟩
        rw [getD_set_ne _ _ _ _ _ hvnb]
        exact hprev
    · intro v' hvexp pu hprev
      have hvnb : v' ≠ nb := by
        intro h
        rw [h, hnbexp] at hvexp
        cases hvexp
      rw [getD_set_ne _ _ _ _ _ hvnb] at hprev
      exact hmid.prev_explored v' hvexp pu hprev
    · intro e he N hN
      have hcongr := backtrackAux_congr s.prev (s.prev.set nb (some cur))
        (fun v' => s.explored.getD v' false = true)
        (fun v' hv' => by
          have hvnb : v' ≠ nb := by
            intro h
            rw [h, hnbexp] at hv'
            cases hv'
          rw [getD_set_ne _ _ _ _ _ hvnb])
        (fun v' j hv' hj => hmid.prev_explored v' hv' j hj)
        N e.2 [] (hmid.pops_explored _ he)
      show IsPath g start e.2 (backtrackAux (s.prev.set nb (some cur)) N e.2 []) ∧
        walkCost (fun a b => (cf a b).1)
          (backtrackAux (s.prev.set nb (some cur)) N e.2 []) = e.1
      rw [← hcongr]
      exact hmid.pops_path _ he N hN
  · rw [if_neg hc]
    refine ⟨hmid.len_explored, hmid.len_mc, hmid.len_prev, hmid.heap_lt, hmid.heap_path,
      hmid.pops_shortest, hmid.pops_explored, hmid.pops_lt, hmid.pops_nodup,
      hmid.explored_pops, hmid.goal_unexplored, ?_, hmid.mc_entry, hmid.mc_le,
      hmid.start_explored, hmid.prev_start, hmid.prev_mc, hmid.prev_explored,
      hmid.pops_path, hmid.cur_pop⟩
    intro e he nb' hnb' hune
    rcases hmid.closure e he nb' hnb' hune with ⟨heq, hpend⟩ | ⟨c', hc'm, hle⟩
    · rcases List.mem_cons.mp hpend with rfl | hpend'
      · subst heq
        have hnbexp' : (!(s.explored.getD nb' false)) = true := by
          rw [hune]; rfl
        have hltf : ltOpt (bc + (cf cur nb').1) (s.min_cost.getD nb' none) = false := by
          cases hb : ltOpt (bc + (cf cur nb').1) (s.min_cost.getD nb' none)
          · rfl
          · exfalso
            apply hc
            rw [Bool.and_eq_true_iff]
            exact ⟨hnbexp', hb⟩
        obtain ⟨m, hmcv, hmle⟩ : ∃ m : ℚ, s.min_cost.getD nb' none = some m ∧
            m ≤ bc + (cf cur nb').1 := by
          cases hmc : s.min_cost.getD nb' none with
          | none => rw [hmc] at hltf; cases hltf
          | some m =>
            rw [hmc] at hltf
            have := of_decide_eq_false hltf
            exact ⟨m, rfl, le_of_not_lt this⟩
        have hcurlt' : cur < g.n := hmid.pops_lt _ hmid.cur_pop
        have hnblt' : nb' < g.n := neighbor_lt hWF hcurlt' hnbmem
        exact Or.inr ⟨m, hmid.mc_entry nb' hnblt' hune m hmcv, hmle⟩
      · exact Or.inl ⟨heq, hpend'⟩
    · exact Or.inr ⟨c', hc'm, hle⟩

lemma expandNbrs_midInv {g : Graph} {cf : ℕ → ℕ → ℚ × List X × List Y}
    {start goal : ℕ} {bc : ℚ} {cur : ℕ}
    (hWF : g.WF) (hw : ∀ a b, 0 ≤ (cf a b).1) :
    ∀ (todo : List ℕ) (s : DijkState X Y),
      MidInv g cf start goal bc cur todo s → (∀ x ∈ todo, x ∈ g.neighbors cur) →
      ∃ s₂, expandNbrs cf bc cur todo s = (s₂, false) ∧
        MidInv g cf start goal bc cur [] s₂ := by
  intro todo
  induction todo with
  | nil => intro s hmid _; exact ⟨s, rfl, hmid⟩
  | cons nb rest ih =>
    intro s hmid hsub
    have hnneg : ¬ (cf cur nb).1 < 0 := not_lt.mpr (hw cur nb)
    have hstep : expandNbrs cf bc cur (nb :: rest) s =
        expandNbrs cf bc cur rest (relaxStep cf bc cur nb (evalStep cf cur nb s)) := by
      conv_lhs => unfold expandNbrs
      rw [if_neg hnneg]
    have hmid' : MidInv g cf start goal bc cur rest
        (relaxStep cf bc cur nb (evalStep cf cur nb s)) :=
      midInv_relaxStep hWF (midInv_evalStep hmid) (hsub nb (by simp))
    obtain ⟨s₂, heq, hfin⟩ := ih _ hmid' (fun x hx => hsub x (by simp [hx]))
    exact ⟨s₂, by rw [hstep, heq], hfin⟩

lemma midInv_to_dijkInv {g : Graph} {cf : ℕ → ℕ → ℚ × List X × List Y}
    {start goal : ℕ} {bc : ℚ} {cur : ℕ} {s : DijkState X Y}
    (hmid : MidInv g cf start goal bc cur [] s) :
    DijkInv g cf start goal s := by
  refine ⟨hmid.len_explored, hmid.len_mc, hmid.len_prev, hmid.heap_lt, hmid.heap_path,
    hmid.pops_shortest, hmid.pops_explored, hmid.pops_lt, hmid.pops_nodup,
    hmid.explored_pops, hmid.goal_unexplored, ?_, hmid.mc_entry, hmid.mc_le,
    Or.inr hmid.start_explored, hmid.prev_start, hmid.prev_mc, hmid.prev_explored,
    hmid.pops_path⟩
  intro e he nb hnb hune
  rcases hmid.closure e he nb hnb hune with ⟨_, hpend⟩ | hwit
  · simp at hpend
  · exact hwit

/-- Soundness of the search loop: from an invariant state and with a
non-negative deterministic cost evaluator, the loop either returns the exact
minimum start-to-goal cost together with a valid minimum-cost start-to-goal
path, or reports `(∞, [])` precisely when no start-to-goal path exists. -/
lemma dijkLoop_sound {g : Graph} {cf : ℕ → ℕ → ℚ × List X × List Y} {start goal : ℕ}
    (hWF : g.WF) (hw : ∀ a b, 0 ≤ (cf a b).1) :
    ∀ (fuel : ℕ) (s : DijkState X Y), DijkInv g cf start goal s →
      ∀ (out : DijkOutcome) (s' : DijkState X Y),
        dijkLoop g cf goal fuel s = some (out, s') →
        (∃ (c : ℚ) (p : List ℕ), out = DijkOutcome.success (↑c) p ∧
          IsShortest g (fun a b => (cf a b).1) start goal c ∧
          IsPath g start goal p ∧ walkCost (fun a b => (cf a b).1) p = c) ∨
        (out = DijkOutcome.success ⊤ [] ∧ s'.to_explore = [] ∧
          ∀ q, ¬ IsPath g start goal q) := by
  intro fuel
  induction fuel with
  | zero => intro s _ out s' h; cases h
  | succ fuel ih =>
    intro s hinv out s' hrun
    cases hpop : popMin s.to_explore with
    | none =>
      rw [dijkLoop_pop_none hpop] at hrun
      simp only [Option.some.injEq, Prod.mk.injEq] at hrun
      obtain ⟨h1, h2⟩ := hrun
      subst h1
      subst h2
      have hempty : s.to_explore = [] := popMin_eq_none.mp hpop
      exact Or.inr ⟨rfl, hempty, fun q hq =>
        empty_heap_no_path hinv hempty goal q hq hinv.goal_unexplored⟩
    | some pr =>
      obtain ⟨⟨bc, cur⟩, rest⟩ := pr
      by_cases hexp : s.explored.getD cur false = true
      · rw [dijkLoop_pop_stale hpop hexp] at hrun
        exact ih _ (dijkInv_stale hinv hpop hexp) out s' hrun
      · have hexp' : s.explored.getD cur false = false := by
          cases hb : s.explored.getD cur false
          · rfl
          · exact absurd hb hexp
        by_cases hgoal : cur = goal
        · rw [dijkLoop_pop_goal hpop hexp' hgoal] at hrun
          simp only [Option.some.injEq, Prod.mk.injEq] at hrun
          obtain ⟨h1, h2⟩ := hrun
          left
          have hbound : s.pops.length + 1 ≤ g.n := by
            have hnodup : ((s.pops.map Prod.snd) ++ [cur]).Nodup := by
              rw [List.nodup_append]
              refine ⟨hinv.pops_nodup, by simp, ?_⟩
              intro a ha hb
              obtain rfl : a = cur := by simpa using hb
              obtain ⟨e, hemem, hesnd⟩ := List.mem_map.mp ha
              have hpe := hinv.pops_explored _ hemem
              rw [hesnd, hexp'] at hpe
              cases hpe
            have hlt : ∀ x ∈ (s.pops.map Prod.snd) ++ [cur], x < g.n := by
              intro x hx
              rcases List.mem_append.mp hx with h | h
              · obtain ⟨e, hemem, rfl⟩ := List.mem_map.mp h
                exact hinv.pops_lt _ hemem
              · obtain rfl : x = cur := by simpa using h
                exact hinv.heap_lt _ (popMin_spec hpop).1
            have := nodup_lt_length_le hnodup hlt
            simpa using this
          obtain ⟨hpath, hcost⟩ := popped_backtrack hinv hpop hexp' s.prev.length
            (by rw [hinv.len_prev]; exact hbound)
          have hshort := popped_shortest hw hinv hpop hexp'
          refine ⟨bc, backtrack_indices cur (markPop s bc cur rest).prev, ?_, ?_, ?_, ?_⟩
          · exact h1.symm
          · rw [← hgoal]; exact hshort
          · rw [← hgoal]
            show IsPath g start cur (backtrackAux s.prev s.prev.length cur [])
            exact hpath
          · show walkCost (fun a b => (cf a b).1)
              (backtrackAux s.prev s.prev.length cur []) = bc
            exact hcost
        · rw [dijkLoop_pop_expand hpop hexp' hgoal] at hrun
          obtain ⟨s₂, hexpand, hmidfin⟩ := expandNbrs_midInv hWF hw (g.neighbors cur)
            (markPop s bc cur rest) (midInv_markPop hw hinv hpop hexp' hgoal)
            (fun x hx => hx)
          rw [hexpand] at hrun
          exact ih _ (midInv_to_dijkInv hmidfin) out s' hrun

/-! ### The chosen fuel suffices, so `dijkRun` is the loop's value -/

lemma dijkPhi_init (g : Graph) (start : ℕ) :
    dijkPhi g (dijkInit g start : DijkState X Y) < dijkFuel g := by
  unfold dijkPhi dijkFuel dijkInit
  simp only
  have hfilter : (List.range g.n).filter
      (fun i => !((List.replicate g.n false).getD i false)) = List.range g.n := by
    apply List.filter_eq_self.mpr
    intro a ha
    rw [getD_replicate _ _ _ _ (List.mem_range.mp ha)]
    rfl
  rw [hfilter]
  have hmap : (List.range g.n).map (fun i => (g.neighbors i).length) =
      g.nbrs.map List.length := by
    apply List.ext_getElem
    · simp [Graph.n]
    · intro i h1 h2
      simp only [List.getElem_map, List.getElem_range]
      unfold Graph.neighbors
      rw [List.getD_eq_getElem _ _ (by simpa [Graph.n] using h2)]
  rw [hmap]
  simp only [List.length_singleton]
  omega

lemma dijkRun_eq (g : Graph) (cf : ℕ → ℕ → ℚ × List X × List Y) (start goal : ℕ) :
    dijkLoop g cf goal (dijkFuel g) (dijkInit g start : DijkState X Y) =
      some (dijkRun g cf start goal) := by
  have hs := dijkLoop_isSome g cf goal (dijkFuel g) (dijkInit g start)
    (by show (List.replicate g.n false).length = g.n; simp) (dijkPhi_init g start)
  obtain ⟨r, hr⟩ := Option.isSome_iff_exists.mp hs
  unfold dijkRun
  rw [hr]
  rfl

/-! ### Instrumentation lemmas: the `evals` ghost and the execution path -/

lemma relaxStep_evals (cf : ℕ → ℕ → ℚ × List X × List Y) (bc : ℚ) (cur nb : ℕ)
    (s : DijkState X Y) : (relaxStep cf bc cur nb s).evals = s.evals := by
  unfold relaxStep
  split <;> rfl

lemma relaxStep_exe (cf : ℕ → ℕ → ℚ × List X × List Y) (bc : ℚ) (cur nb : ℕ)
    (s : DijkState X Y) : (relaxStep cf bc cur nb s).exeX = s.exeX ∧
      (relaxStep cf bc cur nb s).exeY = s.exeY := by
  unfold relaxStep
  split <;> exact ⟨rfl, rfl⟩

lemma relaxStep_pops (cf : ℕ → ℕ → ℚ × List X × List Y) (bc : ℚ) (cur nb : ℕ)
    (s : DijkState X Y) : (relaxStep cf bc cur nb s).pops = s.pops := by
  unfold relaxStep
  split <;> rfl

lemma expandNbrs_pops (cf : ℕ → ℕ → ℚ × List X × List Y) (bc : ℚ) (cur : ℕ) :
    ∀ (nbrs : List ℕ) (s : DijkState X Y),
      (expandNbrs cf bc cur nbrs s).1.pops = s.pops := by
  intro nbrs
  induction nbrs with
  | nil => intro s; rfl
  | cons nb rest ih =>
    intro s
    unfold expandNbrs
    by_cases hneg : (cf cur nb).1 < 0
    · rw [if_pos hneg]
      rfl
    · rw [if_neg hneg, ih, relaxStep_pops]
      rfl

/-- With a non-negative evaluator, the neighbor loop never raises. -/
lemma expandNbrs_no_error {cf : ℕ → ℕ → ℚ × List X × List Y} {bc : ℚ} {cur : ℕ}
    (hw : ∀ a b, 0 ≤ (cf a b).1) :
    ∀ (todo : List ℕ) (s : DijkState X Y),
      ∃ s₂, expandNbrs cf bc cur todo s = (s₂, false) := by
  intro todo
  induction todo with
  | nil => intro s; exact ⟨s, rfl⟩
  | cons nb rest ih =>
    intro s
    have hnneg : ¬ (cf cur nb).1 < 0 := not_lt.mpr (hw cur nb)
    obtain ⟨s₂, h⟩ := ih (relaxStep cf bc cur nb (evalStep cf cur nb s))
    refine ⟨s₂, ?_⟩
    conv_lhs => unfold expandNbrs
    rw [if_neg hnneg]
    exact h

/-- A successful neighbor loop records exactly one `eval_cost` call per
neighbor, in order, with the neighbor's explored flag at call time. -/
lemma expandNbrs_evals_ok {cf : ℕ → ℕ → ℚ × List X × List Y} {bc : ℚ} {cur : ℕ} :
    ∀ (todo : List ℕ) (s s₂ : DijkState X Y),
      expandNbrs cf bc cur todo s = (s₂, false) →
      s₂.evals = s.evals ++ todo.map (fun nb => (cur, nb, s.explored.getD nb false)) := by
  intro todo
  induction todo with
  | nil =>
    intro s s₂ h
    obtain rfl : s = s₂ := congrArg Prod.fst h
    simp
  | cons nb rest ih =>
    intro s s₂ h
    by_cases hneg : (cf cur nb).1 < 0
    · exfalso
      unfold expandNbrs at h
      rw [if_pos hneg] at h
      have : true = false := congrArg Prod.snd h
      cases this
    · unfold expandNbrs at h
      rw [if_neg hneg] at h
      have hih := ih _ _ h
      have hevals : (relaxStep cf bc cur nb (evalStep cf cur nb s)).evals =
          s.evals ++ [(cur, nb, s.explored.getD nb false)] := by
        rw [relaxStep_evals]
        rfl
      have hexpl : (relaxStep cf bc cur nb (evalStep cf cur nb s)).explored =
          s.explored := by
        rw [relaxStep_explored]
        rfl
      rw [hih, hevals, hexpl]
      simp

/-- A successful neighbor loop only happens when every evaluated cost on the
list is non-negative. -/
lemma expandNbrs_nonneg_ok {cf : ℕ → ℕ → ℚ × List X × List Y} {bc : ℚ} {cur : ℕ} :
    ∀ (todo : List ℕ) (s s₂ : DijkState X Y),
      expandNbrs cf bc cur todo s = (s₂, false) →
      ∀ nb ∈ todo, 0 ≤ (cf cur nb).1 := by
  intro todo
  induction todo with
  | nil => intro s s₂ _ nb h; simp at h
  | cons nb rest ih =>
    intro s s₂ h nb' hnb'
    by_cases hneg : (cf cur nb).1 < 0
    · exfalso
      unfold expandNbrs at h
      rw [if_pos hneg] at h
      have : true = false := congrArg Prod.snd h
      cases this
    · unfold expandNbrs at h
      rw [if_neg hneg] at h
      rcases List.mem_cons.mp hnb' with rfl | hnb''
      · exact not_lt.mp hneg
      · exact ih _ _ h nb' hnb''

/-- A raising neighbor loop records the offending call last: the final
recorded eval has a negative cost. -/
lemma expandNbrs_error_last {cf : ℕ → ℕ → ℚ × List X × List Y} {bc : ℚ} {cur : ℕ} :
    ∀ (todo : List ℕ) (s s₂ : DijkState X Y),
      expandNbrs cf bc cur todo s = (s₂, true) →
      ∃ l, s₂.evals.getLast? = some l ∧ (cf l.1 l.2.1).1 < 0 := by
  intro todo
  induction todo with
  | nil =>
    intro s s₂ h
    have : false = true := congrArg Prod.snd h
    cases this
  | cons nb rest ih =>
    intro s s₂ h
    by_cases hneg : (cf cur nb).1 < 0
    · unfold expandNbrs at h
      rw [if_pos hneg] at h
      obtain rfl : evalStep cf cur nb s = s₂ := congrArg Prod.fst h
      refine ⟨(cur, nb, s.explored.getD nb false), ?_, hneg⟩
      show (s.evals ++ [(cur, nb, s.explored.getD nb false)]).getLast? = _
      simp
    · unfold expandNbrs at h
      rw [if_neg hneg] at h
      exact ih _ _ h

/-- With a non-negative evaluator, the search never returns the
`AssertionError` outcome. -/
lemma dijkLoop_no_assertFail {g : Graph} {cf : ℕ → ℕ → ℚ × List X × List Y}
    {goal : ℕ} (hw : ∀ a b, 0 ≤ (cf a b).1) :
    ∀ (fuel : ℕ) (s : DijkState X Y) (out : DijkOutcome) (s' : DijkState X Y),
      dijkLoop g cf goal fuel s = some (out, s') → out ≠ DijkOutcome.assertFail := by
  intro fuel
  induction fuel with
  | zero => intro s out s' h; cases h
  | succ fuel ih =>
    intro s out s' hrun
    cases hpop : popMin s.to_explore with
    | none =>
      rw [dijkLoop_pop_none hpop] at hrun
      simp only [Option.some.injEq, Prod.mk.injEq] at hrun
      rw [← hrun.1]
      intro h
      cases h
    | some pr =>
      obtain ⟨⟨bc, cur⟩, rest⟩ := pr
      by_cases hexp : s.explored.getD cur false = true
      · rw [dijkLoop_pop_stale hpop hexp] at hrun
        exact ih _ _ _ hrun
      · have hexp' : s.explored.getD cur false = false := by
          cases hb : s.explored.getD cur false
          · rfl
          · exact absurd hb hexp
        by_cases hgoal : cur = goal
        · rw [dijkLoop_pop_goal hpop hexp' hgoal] at hrun
          simp only [Option.some.injEq, Prod.mk.injEq] at hrun
          rw [← hrun.1]
          intro h
          cases h
        · rw [dijkLoop_pop_expand hpop hexp' hgoal] at hrun
          obtain ⟨s₂, hexpand⟩ := expandNbrs_no_error hw (g.neighbors cur)
            (markPop s bc cur rest)
          rw [hexpand] at hrun
          exact ih _ _ _ hrun

/-- The execution path is exactly the concatenation of the query sequences of
the recorded `eval_cost` calls, in order. -/
def ExeFromEvals (cf : ℕ → ℕ → ℚ × List X × List Y) (s : DijkState X Y) : Prop :=
  s.exeX = (s.evals.map (fun ev => (cf ev.1 ev.2.1).2.1)).flatten ∧
  s.exeY = (s.evals.map (fun ev => (cf ev.1 ev.2.1).2.2)).flatten

lemma evalStep_exeFromEvals {cf : ℕ → ℕ → ℚ × List X × List Y} {cur nb : ℕ}
    {s : DijkState X Y} (h : ExeFromEvals cf s) :
    ExeFromEvals cf (evalStep cf cur nb s) := by
  obtain ⟨hx, hy⟩ := h
  constructor
  · show s.exeX ++ (cf cur nb).2.1 = _
    rw [hx]
    show _ = ((s.evals ++ [(cur, nb, s.explored.getD nb false)]).map
      (fun ev => (cf ev.1 ev.2.1).2.1)).flatten
    rw [List.map_append, List.flatten_append]
    simp
  · show s.exeY ++ (cf cur nb).2.2 = _
    rw [hy]
    show _ = ((s.evals ++ [(cur, nb, s.explored.getD nb false)]).map
      (fun ev => (cf ev.1 ev.2.1).2.2)).flatten
    rw [List.map_append, List.flatten_append]
    simp

lemma relaxStep_exeFromEvals {cf : ℕ → ℕ → ℚ × List X × List Y} {bc : ℚ}
    {cur nb : ℕ} {s : DijkState X Y} (h : ExeFromEvals cf s) :
    ExeFromEvals cf (relaxStep cf bc cur nb s) := by
  unfold ExeFromEvals relaxStep at *
  split <;> exact h

lemma expandNbrs_exeFromEvals {cf : ℕ → ℕ → ℚ × List X × List Y} {bc : ℚ} {cur : ℕ} :
    ∀ (todo : List ℕ) (s s₂ : DijkState X Y) (b : Bool),
      expandNbrs cf bc cur todo s = (s₂, b) → ExeFromEvals cf s →
      ExeFromEvals cf s₂ := by
  intro todo
  induction todo with
  | nil =>
    intro s s₂ b h hs
    obtain rfl : s = s₂ := congrArg Prod.fst h
    exact hs
  | cons nb rest ih =>
    intro s s₂ b h hs
    by_cases hneg : (cf cur nb).1 < 0
    · unfold expandNbrs at h
      rw [if_pos hneg] at h
      obtain rfl : evalStep cf cur nb s = s₂ := congrArg Prod.fst h
      exact evalStep_exeFromEvals hs
    · unfold expandNbrs at h
      rw [if_neg hneg] at h
      exact ih _ _ _ h (relaxStep_exeFromEvals (evalStep_exeFromEvals hs))

lemma dijkLoop_exeFromEvals {g : Graph} {cf : ℕ → ℕ → ℚ × List X × List Y} {goal : ℕ} :
    ∀ (fuel : ℕ) (s : DijkState X Y) (out : DijkOutcome) (s' : DijkState X Y),
      dijkLoop g cf goal fuel s = some (out, s') → ExeFromEvals cf s →
      ExeFromEvals cf s' := by
  intro fuel
  induction fuel with
  | zero => intro s out s' h; cases h
  | succ fuel ih =>
    intro s out s' hrun hs
    cases hpop : popMin s.to_explore with
    | none =>
      rw [dijkLoop_pop_none hpop] at hrun
      simp only [Option.some.injEq, Prod.mk.injEq] at hrun
      rw [← hrun.2]
      exact hs
    | some pr =>
      obtain ⟨⟨bc, cur⟩, rest⟩ := pr
      by_cases hexp : s.explored.getD cur false = true
      · rw [dijkLoop_pop_stale hpop hexp] at hrun
        exact ih _ _ _ hrun hs
      · have hexp' : s.explored.getD cur false = false := by
          cases hb : s.explored.getD cur false
          · rfl
          · exact absurd hb hexp
        by_cases hgoal : cur = goal
        · rw [dijkLoop_pop_goal hpop hexp' hgoal] at hrun
          simp only [Option.some.injEq, Prod.mk.injEq] at hrun
          rw [← hrun.2]
          exact hs
        · rw [dijkLoop_pop_expand hpop hexp' hgoal] at hrun
          rcases hexpand : expandNbrs cf bc cur (g.neighbors cur)
              (markPop s bc cur rest) with ⟨s₂, b⟩
          have hmid : ExeFromEvals cf s₂ :=
            expandNbrs_exeFromEvals _ _ _ _ hexpand hs
          rw [hexpand] at hrun
          cases b
          · exact ih _ _ _ hrun hmid
          · simp only [Option.some.injEq, Prod.mk.injEq] at hrun
            rw [← hrun.2]
            exact hmid

lemma dijkLoop_evals_nonneg {g : Graph} {cf : ℕ → ℕ → ℚ × List X × List Y} {goal : ℕ} :
    ∀ (fuel : ℕ) (s : DijkState X Y) (out : DijkOutcome) (s' : DijkState X Y),
      dijkLoop g cf goal fuel s = some (out, s') → out ≠ DijkOutcome.assertFail →
      (∀ ev ∈ s.evals, 0 ≤ (cf ev.1 ev.2.1).1) →
      ∀ ev ∈ s'.evals, 0 ≤ (cf ev.1 ev.2.1).1 := by
  intro fuel
  induction fuel with
  | zero => intro s out s' h; cases h
  | succ fuel ih =>
    intro s out s' hrun hout hs
    cases hpop : popMin s.to_explore with
    | none =>
      rw [dijkLoop_pop_none hpop] at hrun
      simp only [Option.some.injEq, Prod.mk.injEq] at hrun
      rw [← hrun.2]
      exact hs
    | some pr =>
      obtain ⟨⟨bc, cur⟩, rest⟩ := pr
      by_cases hexp : s.explored.getD cur false = true
      · rw [dijkLoop_pop_stale hpop hexp] at hrun
        exact ih _ _ _ hrun hout hs
      · have hexp' : s.explored.getD cur false = false := by
          cases hb : s.explored.getD cur false
          · rfl
          · exact absurd hb hexp
        by_cases hgoal : cur = goal
        · rw [dijkLoop_pop_goal hpop hexp' hgoal] at hrun
          simp only [Option.some.injEq, Prod.mk.injEq] at hrun
          rw [← hrun.2]
          exact hs
        · rw [dijkLoop_pop_expand hpop hexp' hgoal] at hrun
          rcases hexpand : expandNbrs cf bc cur (g.neighbors cur)
              (markPop s bc cur rest) with ⟨s₂, b⟩
          rw [hexpand] at hrun
          cases b
          · have hnew : ∀ ev ∈ s₂.evals, 0 ≤ (cf ev.1 ev.2.1).1 := by
              have hevals := expandNbrs_evals_ok _ _ _ hexpand
              have hnn := expandNbrs_nonneg_ok _ _ _ hexpand
              intro ev hev
              rw [hevals] at hev
              rcases List.mem_append.mp hev with hold | hnewm
              · exact hs ev hold
              · obtain ⟨nb, hnbmem, rfl⟩ := List.mem_map.mp hnewm
                exact hnn nb hnbmem
            exact ih _ _ _ hrun hout hnew
          · exfalso
            simp only [Option.some.injEq, Prod.mk.injEq] at hrun
            exact hout hrun.1.symm

lemma dijkLoop_assertFail_last {g : Graph} {cf : ℕ → ℕ → ℚ × List X × List Y}
    {goal : ℕ} :
    ∀ (fuel : ℕ) (s : DijkState X Y) (s' : DijkState X Y),
      dijkLoop g cf goal fuel s = some (DijkOutcome.assertFail, s') →
      ∃ l, s'.evals.getLast? = some l ∧ (cf l.1 l.2.1).1 < 0 := by
  intro fuel
  induction fuel with
  | zero => intro s s' h; cases h
  | succ fuel ih =>
    intro s s' hrun
    cases hpop : popMin s.to_explore with
    | none =>
      rw [dijkLoop_pop_none hpop] at hrun
      simp only [Option.some.injEq, Prod.mk.injEq] at hrun
      cases hrun.1
    | some pr =>
      obtain ⟨⟨bc, cur⟩, rest⟩ := pr
      by_cases hexp : s.explored.getD cur false = true
      · rw [dijkLoop_pop_stale hpop hexp] at hrun
        exact ih _ _ hrun
      · have hexp' : s.explored.getD cur false = false := by
          cases hb : s.explored.getD cur false
          · rfl
          · exact absurd hb hexp
        by_cases hgoal : cur = goal
        · rw [dijkLoop_pop_goal hpop hexp' hgoal] at hrun
          simp only [Option.some.injEq, Prod.mk.injEq] at hrun
          cases hrun.1
        · rw [dijkLoop_pop_expand hpop hexp' hgoal] at hrun
          rcases hexpand : expandNbrs cf bc cur (g.neighbors cur)
              (markPop s bc cur rest) with ⟨s₂, b⟩
          rw [hexpand] at hrun
          cases b
          · exact ih _ _ hrun
          · simp only [Option.some.injEq, Prod.mk.injEq] at hrun
            rw [← hrun.2]
            exact expandNbrs_error_last _ _ _ hexpand

/-- Every neighbor of every expanded non-goal vertex gets an `eval_cost`
call recorded, regardless of its explored status. -/
def EvalsCover (g : Graph) (goal : ℕ) (s : DijkState X Y) : Prop :=
  ∀ e ∈ s.pops, e.2 ≠ goal → ∀ nb ∈ g.neighbors e.2,
    (e.2, nb) ∈ s.evals.map (fun ev => (ev.1, ev.2.1))

lemma dijkLoop_evalsCover {g : Graph} {cf : ℕ → ℕ → ℚ × List X × List Y} {goal : ℕ}
    (hw : ∀ a b, 0 ≤ (cf a b).1) :
    ∀ (fuel : ℕ) (s : DijkState X Y) (out : DijkOutcome) (s' : DijkState X Y),
      dijkLoop g cf goal fuel s = some (out, s') → EvalsCover g goal s →
      EvalsCover g goal s' := by
  intro fuel
  induction fuel with
  | zero => intro s out s' h; cases h
  | succ fuel ih =>
    intro s out s' hrun hs
    cases hpop : popMin s.to_explore with
    | none =>
      rw [dijkLoop_pop_none hpop] at hrun
      simp only [Option.some.injEq, Prod.mk.injEq] at hrun
      rw [← hrun.2]
      exact hs
    | some pr =>
      obtain ⟨⟨bc, cur⟩, rest⟩ := pr
      by_cases hexp : s.explored.getD cur false = true
      · rw [dijkLoop_pop_stale hpop hexp] at hrun
        exact ih _ _ _ hrun hs
      · have hexp' : s.explored.getD cur false = false := by
          cases hb : s.explored.getD cur false
          · rfl
          · exact absurd hb hexp
        by_cases hgoal : cur = goal
        · rw [dijkLoop_pop_goal hpop hexp' hgoal] at hrun
          simp only [Option.some.injEq, Prod.mk.injEq] at hrun
          rw [← hrun.2]
          intro e he hene nb hnb
          show (e.2, nb) ∈ s.evals.map (fun ev => (ev.1, ev.2.1))
          rcases List.mem_append.mp he with hold | hnew
          · exact hs e hold hene nb hnb
          · obtain rfl : e = (bc, cur) := by simpa using hnew
            exact absurd hgoal hene
        · rw [dijkLoop_pop_expand hpop hexp' hgoal] at hrun
          obtain ⟨s₂, hexpand⟩ := expandNbrs_no_error hw (g.neighbors cur)
            (markPop s bc cur rest)
          rw [hexpand] at hrun
          have hcov₂ : EvalsCover g goal s₂ := by
            have hevals := expandNbrs_evals_ok _ _ _ hexpand
            intro e he hene nb hnb
            have hpops₂ : s₂.pops = s.pops ++ [(bc, cur)] := by
              have h1 : s₂.explored = (markPop s bc cur rest).explored := by
                have := expandNbrs_explored cf bc cur (g.neighbors cur)
                  (markPop s bc cur rest)
                rw [hexpand] at this
                exact this
              have h2 := expandNbrs_pops cf bc cur (g.neighbors cur)
                (markPop s bc cur rest)
              rw [hexpand] at h2
              exact h2
            rw [hpops₂] at he
            rw [hevals]
            rcases List.mem_append.mp he with hold | hnew
            · have := hs e hold hene nb hnb
              rw [List.map_append]
              exact List.mem_append_left _ this
            · obtain rfl : e = (bc, cur) := by simpa using hnew
              rw [List.map_append]
              refine List.mem_append_right _ ?_
              show (cur, nb) ∈ ((g.neighbors cur).map
                (fun nb' => (cur, nb', (markPop s bc cur rest).explored.getD nb' false))).map
                (fun ev => (ev.1, ev.2.1))
              rw [List.map_map]
              exact List.mem_map.mpr ⟨nb, hnb, rfl⟩
          exact ih _ _ _ hrun hcov₂

/-! ## Claim theorems -/

/-- **C1**: For every graph (finite vertex list with stable indices), start and
goal vertices, and deterministic non-negative edge-cost evaluator, the
shortest-path variant's run returns a cost equal to the minimum cost of any
start-to-goal path (the returned path itself attains it, and no start-to-goal
walk costs less), and the returned path is a valid start-to-goal walk in the
graph (each consecutive pair is an edge, first element is start, last is
goal).  The existence hypothesis reflects that "the minimum cost of any
start-to-goal path" presupposes at least one path. -/
theorem dijkstras_run_returns_min_cost_and_valid_path
    (X : Type u) (Y : Type v) (g : Graph)
    (cost_func : ℕ → ℕ → (X → Y) → ℚ × List X × List Y) (f : X → Y)
    (start goal : ℕ) (hWF : g.WF) (hstart : start < g.n)
    (hw : ∀ a b : ℕ, 0 ≤ (cost_func a b f).1)
    (hpath : ∃ q, ValidWalk g start goal q) :
    ∃ (c : ℚ) (p : List ℕ),
      (Dijkstras.run_algorithm_on_f g cost_func f start goal).1 =
        DijkOutcome.success (↑c) p ∧
      ValidWalk g start goal p ∧
      walkCost (fun a b => (cost_func a b f).1) p = c ∧
      ∀ q, ValidWalk g start goal q →
        c ≤ walkCost (fun a b => (cost_func a b f).1) q := by
  have hrun := dijkRun_eq g (fun a b => cost_func a b f) start goal
  have hsound := dijkLoop_sound hWF hw (dijkFuel g) (dijkInit g start)
    (dijkInv_init g (fun a b => cost_func a b f) start goal hstart)
    (dijkRun g (fun a b => cost_func a b f) start goal).1
    (dijkRun g (fun a b => cost_func a b f) start goal).2
    (by rw [hrun])
  rcases hsound with ⟨c, p, hout, hshort, hpathp, hcost⟩ | ⟨_, _, hnone⟩
  · refine ⟨c, p, hout, hpathp.validWalk, hcost, ?_⟩
    intro q hq
    exact hshort.2 q (validWalk_isPath hq)
  · obtain ⟨q, hq⟩ := hpath
    exact absurd (validWalk_isPath hq) (hnone q)

theorem dijkstras_run_returns_min_cost_and_valid_path_witness :
    ∃ (c : ℚ) (p : List ℕ),
      (Dijkstras.run_algorithm_on_f (⟨[[1], []]⟩ : Graph)
        (fun _ _ _ => ((1 : ℚ), ([] : List ℕ), ([] : List ℕ)))
        (fun x : ℕ => x) 0 1).1 = DijkOutcome.success (↑c) p ∧
      ValidWalk ⟨[[1], []]⟩ 0 1 p ∧
      walkCost (fun _ _ => (1 : ℚ)) p = c ∧
      ∀ q, ValidWalk ⟨[[1], []]⟩ 0 1 q → c ≤ walkCost (fun _ _ => (1 : ℚ)) q :=
  dijkstras_run_returns_min_cost_and_valid_path ℕ ℕ ⟨[[1], []]⟩
    (fun _ _ _ => ((1 : ℚ), ([] : List ℕ), ([] : List ℕ))) (fun x => x) 0 1
    (by decide) (by decide) (fun _ _ => by norm_num) ⟨[0, 1], by decide⟩

/-- If `t` differs from `s` and appears in no neighbor list, no `s`-to-`t`
walk exists. -/
lemma no_walk_to_unreferenced {g : Graph} {s t : ℕ} (hst : s ≠ t)
    (hnotnb : ∀ l ∈ g.nbrs, t ∉ l) : ∀ q, ¬ ValidWalk g s t q := by
  intro q hq
  have hp := validWalk_isPath hq
  cases hp with
  | refl => exact hst rfl
  | @snoc u v p' hp' hedge =>
    obtain ⟨hu, hmem⟩ := hedge
    have hin : g.nbrs.getD u [] ∈ g.nbrs := by
      rw [List.getD_eq_getElem _ _ hu]
      exact List.getElem_mem hu
    exact hnotnb _ hin hmem

/-- **C2**: For every run of the shortest-path variant in which the goal is
unreachable from the start, the search terminates when the frontier empties
(the final state's frontier is `[]`) and returns infinite cost together with
an empty path, as the normal `success` return value — not via the error
outcome (`assertFail`, which models the only exception the search itself
raises). -/
theorem dijkstras_unreachable_goal_returns_inf_empty
    (X : Type u) (Y : Type v) (g : Graph)
    (cost_func : ℕ → ℕ → (X → Y) → ℚ × List X × List Y) (f : X → Y)
    (start goal : ℕ) (hWF : g.WF) (hstart : start < g.n)
    (hw : ∀ a b : ℕ, 0 ≤ (cost_func a b f).1)
    (hnopath : ∀ q, ¬ ValidWalk g start goal q) :
    (Dijkstras.run_algorithm_on_f g cost_func f start goal).1 =
      DijkOutcome.success ⊤ [] ∧
    (Dijkstras.run_algorithm_on_f g cost_func f start goal).2.to_explore = [] := by
  have hrun := dijkRun_eq g (fun a b => cost_func a b f) start goal
  have hsound := dijkLoop_sound hWF hw (dijkFuel g) (dijkInit g start)
    (dijkInv_init g (fun a b => cost_func a b f) start goal hstart)
    (dijkRun g (fun a b => cost_func a b f) start goal).1
    (dijkRun g (fun a b => cost_func a b f) start goal).2
    (by rw [hrun])
  rcases hsound with ⟨c, p, _, _, hpathp, _⟩ | ⟨hout, hempty, _⟩
  · exact absurd hpathp.validWalk (hnopath p)
  · exact ⟨hout, hempty⟩

theorem dijkstras_unreachable_goal_returns_inf_empty_witness :
    (Dijkstras.run_algorithm_on_f (⟨[[1], [0], []]⟩ : Graph)
      (fun _ _ _ => ((1 : ℚ), ([] : List ℕ), ([] : List ℕ)))
      (fun x : ℕ => x) 0 2).1 = DijkOutcome.success ⊤ [] ∧
    (Dijkstras.run_algorithm_on_f (⟨[[1], [0], []]⟩ : Graph)
      (fun _ _ _ => ((1 : ℚ), ([] : List ℕ), ([] : List ℕ)))
      (fun x : ℕ => x) 0 2).2.to_explore = [] :=
  dijkstras_unreachable_goal_returns_inf_empty ℕ ℕ ⟨[[1], [0], []]⟩
    (fun _ _ _ => ((1 : ℚ), ([] : List ℕ), ([] : List ℕ))) (fun x => x) 0 2
    (by decide) (by decide) (fun _ _ => by norm_num)
    (no_walk_to_unreferenced (by decide) (by decide))

/-- **C3**: For every run of the shortest-path variant, a negative cost from
the edge evaluator makes the run fail at that evaluation, before producing a
`(cost, path)` result: (i) if the outcome is the raised `AssertionError`, the
last recorded `eval_cost` call is the one with the negative cost; (ii) if a
result is produced (no `AssertionError`), every `eval_cost` call made during
the run returned a non-negative cost — so a negative evaluation never leads
to a result; and (iii) if every returned cost is non-negative, the failure
branch is unreachable. -/
theorem dijkstras_negative_cost_fails_before_result
    (X : Type u) (Y : Type v) (g : Graph)
    (cost_func : ℕ → ℕ → (X → Y) → ℚ × List X × List Y) (f : X → Y)
    (start goal : ℕ) :
    ((Dijkstras.run_algorithm_on_f g cost_func f start goal).1 =
        DijkOutcome.assertFail →
      ∃ l, (Dijkstras.run_algorithm_on_f g cost_func f start goal).2.evals.getLast? =
          some l ∧ (cost_func l.1 l.2.1 f).1 < 0) ∧
    ((Dijkstras.run_algorithm_on_f g cost_func f start goal).1 ≠
        DijkOutcome.assertFail →
      ∀ ev ∈ (Dijkstras.run_algorithm_on_f g cost_func f start goal).2.evals,
        0 ≤ (cost_func ev.1 ev.2.1 f).1) ∧
    ((∀ a b : ℕ, 0 ≤ (cost_func a b f).1) →
      (Dijkstras.run_algorithm_on_f g cost_func f start goal).1 ≠
        DijkOutcome.assertFail) := by
  have hrun := dijkRun_eq g (fun a b => cost_func a b f) start goal
  refine ⟨?_, ?_, ?_⟩
  · intro hfail
    exact @dijkLoop_assertFail_last X Y g (fun a b => cost_func a b f) goal
      (dijkFuel g) (dijkInit g start)
      (Dijkstras.run_algorithm_on_f g cost_func f start goal).2
      (by rw [hrun, ← hfail]; rfl)
  · intro hok
    exact @dijkLoop_evals_nonneg X Y g (fun a b => cost_func a b f) goal
      (dijkFuel g) (dijkInit g start)
      (Dijkstras.run_algorithm_on_f g cost_func f start goal).1
      (Dijkstras.run_algorithm_on_f g cost_func f start goal).2
      (by rw [hrun]; rfl) hok (by intro ev hev; simp [dijkInit] at hev)
  · intro hw
    exact @dijkLoop_no_assertFail X Y g (fun a b => cost_func a b f) goal hw
      (dijkFuel g) (dijkInit g start)
      (Dijkstras.run_algorithm_on_f g cost_func f start goal).1
      (Dijkstras.run_algorithm_on_f g cost_func f start goal).2
      (by rw [hrun]; rfl)

theorem dijkstras_negative_cost_fails_before_result_witness :
    ((Dijkstras.run_algorithm_on_f (⟨[[1], []]⟩ : Graph)
        (fun _ _ _ => ((-1 : ℚ), ([7] : List ℕ), ([8] : List ℕ)))
        (fun x : ℕ => x) 0 1).1 = DijkOutcome.assertFail →
      ∃ l, (Dijkstras.run_algorithm_on_f (⟨[[1], []]⟩ : Graph)
          (fun _ _ _ => ((-1 : ℚ), ([7] : List ℕ), ([8] : List ℕ)))
          (fun x : ℕ => x) 0 1).2.evals.getLast? = some l ∧
        ((fun _ _ _ => ((-1 : ℚ), ([7] : List ℕ), ([8] : List ℕ))) l.1 l.2.1
          (fun x : ℕ => x)).1 < 0) ∧
    ((Dijkstras.run_algorithm_on_f (⟨[[1], []]⟩ : Graph)
        (fun _ _ _ => ((-1 : ℚ), ([7] : List ℕ), ([8] : List ℕ)))
        (fun x : ℕ => x) 0 1).1 ≠ DijkOutcome.assertFail →
      ∀ ev ∈ (Dijkstras.run_algorithm_on_f (⟨[[1], []]⟩ : Graph)
          (fun _ _ _ => ((-1 : ℚ), ([7] : List ℕ), ([8] : List ℕ)))
          (fun x : ℕ => x) 0 1).2.evals,
        0 ≤ ((fun _ _ _ => ((-1 : ℚ), ([7] : List ℕ), ([8] : List ℕ))) ev.1 ev.2.1
          (fun x : ℕ => x)).1) ∧
    ((∀ a b : ℕ, 0 ≤ ((fun _ _ _ => ((-1 : ℚ), ([7] : List ℕ), ([8] : List ℕ)))
        a b (fun x : ℕ => x)).1) →
      (Dijkstras.run_algorithm_on_f (⟨[[1], []]⟩ : Graph)
        (fun _ _ _ => ((-1 : ℚ), ([7] : List ℕ), ([8] : List ℕ)))
        (fun x : ℕ => x) 0 1).1 ≠ DijkOutcome.assertFail) :=
  dijkstras_negative_cost_fails_before_result ℕ ℕ ⟨[[1], []]⟩
    (fun _ _ _ => ((-1 : ℚ), ([7] : List ℕ), ([8] : List ℕ))) (fun x => x) 0 1

/-- **C4** (counterexample): the claim that `eval_cost` is invoked only for
neighbors not yet explored is false.  On the graph `0 ↔ 1` with isolated goal
`2`, the run expands `0` (evaluating edge `(0, 1)` while `1` is unexplored)
and then expands `1`, evaluating edge `(1, 0)` even though `0`'s explored
flag is already `true` — the recorded eval `(1, 0, true)` has an explored
target, so not every recorded eval has an unexplored target. -/
theorem dijkstras_eval_on_explored_neighbor_counterexample :
    (Dijkstras.run_algorithm_on_f (⟨[[1], [0], []]⟩ : Graph)
      (fun _ _ _ => ((1 : ℚ), ([] : List ℕ), ([] : List ℕ)))
      (fun x : ℕ => x) 0 2).2.evals = [(0, 1, false), (1, 0, true)] ∧
    ¬ (∀ ev ∈ (Dijkstras.run_algorithm_on_f (⟨[[1], [0], []]⟩ : Graph)
        (fun _ _ _ => ((1 : ℚ), ([] : List ℕ), ([] : List ℕ)))
        (fun x : ℕ => x) 0 2).2.evals, ev.2.2 = false) := by
  constructor
  · decide
  · decide

/-- **C4** (amended): during the shortest-path search, when a vertex is popped
and expanded (and is not the goal), `eval_cost` is invoked for *every* one of
its neighbors — including neighbors whose explored flag is already `true`;
the explored check only gates the relaxation/push.  Formally: in any run with
a non-negative evaluator, every neighbor `nb` of every expanded non-goal
vertex appears among the recorded `eval_cost` calls. -/
theorem dijkstras_eval_cost_called_for_every_neighbor
    (X : Type u) (Y : Type v) (g : Graph)
    (cost_func : ℕ → ℕ → (X → Y) → ℚ × List X × List Y) (f : X → Y)
    (start goal : ℕ) (hw : ∀ a b : ℕ, 0 ≤ (cost_func a b f).1) :
    EvalsCover g goal (Dijkstras.run_algorithm_on_f g cost_func f start goal).2 := by
  have hrun := dijkRun_eq g (fun a b => cost_func a b f) start goal
  apply @dijkLoop_evalsCover X Y g (fun a b => cost_func a b f) goal hw
    (dijkFuel g) (dijkInit g start)
    (Dijkstras.run_algorithm_on_f g cost_func f start goal).1
    (Dijkstras.run_algorithm_on_f g cost_func f start goal).2
    (by rw [hrun]; rfl)
  intro e he
  simp [dijkInit] at he

theorem dijkstras_eval_cost_called_for_every_neighbor_witness :
    EvalsCover ⟨[[1], [0], []]⟩ 2
      (Dijkstras.run_algorithm_on_f (⟨[[1], [0], []]⟩ : Graph)
        (fun _ _ _ => ((1 : ℚ), ([] : List ℕ), ([] : List ℕ)))
        (fun x : ℕ => x) 0 2).2 :=
  dijkstras_eval_cost_called_for_every_neighbor ℕ ℕ ⟨[[1], [0], []]⟩
    (fun _ _ _ => ((1 : ℚ), ([] : List ℕ), ([] : List ℕ))) (fun x => x) 0 2
    (fun _ _ => by norm_num)

/-- The characterization of a completed generic run used by C5 and C8. -/
lemma run_algorithm_on_f_spec {next : ExePath X Y → Option X} {out : ExePath X Y → O}
    {f : X → Y} {fuel : ℕ} {tr : ExePath X Y} {o : O}
    (h : Algorithm.run_algorithm_on_f next out f fuel = some (tr, o)) :
    ProducedBy next f tr ∧ o = out tr := by
  unfold Algorithm.run_algorithm_on_f at h
  cases hloop : Algorithm.runLoop next f fuel ⟨[], []⟩ with
  | none => rw [hloop] at h; cases h
  | some tr' =>
    rw [hloop] at h
    simp only [Option.map_some', Option.some.injEq, Prod.mk.injEq] at h
    obtain ⟨h1, h2⟩ := h
    subst h1
    exact ⟨(runLoop_sound fuel ⟨[], []⟩ tr' (partialTrace_nil next f) hloop).1, h2.symm⟩

/-- **C5**: For every algorithm variant that does not override `run` — i.e.
for every `next_query` policy `next` and output map `out` — a completed
`run_algorithm_on_f` executes the generic pull loop: starting from the empty
trace, every query is exactly what `next` returns on the trace accumulated so
far, every output is the oracle applied to the corresponding input appended
as a pair, the loop stops exactly when `next` returns the completion sentinel
(`none` on the final trace), and the returned output is `out` of the final
trace. -/
theorem generic_run_is_pull_loop
    (X : Type u) (Y : Type v) (O : Type w) (next : ExePath X Y → Option X)
    (out : ExePath X Y → O) (f : X → Y) (fuel : ℕ) (tr : ExePath X Y) (o : O)
    (h : Algorithm.run_algorithm_on_f next out f fuel = some (tr, o)) :
    ProducedBy next f tr ∧ o = out tr :=
  run_algorithm_on_f_spec h

theorem generic_run_is_pull_loop_witness :
    ProducedBy (Algorithm.get_next_x [1, 2]) (fun x : ℕ => x * x)
      (⟨[1, 2], [1, 4]⟩ : ExePath ℕ ℕ) ∧
    ([1, 4] : List ℕ) = (fun tr : ExePath ℕ ℕ => tr.y) ⟨[1, 2], [1, 4]⟩ :=
  generic_run_is_pull_loop ℕ ℕ (List ℕ) (Algorithm.get_next_x [1, 2])
    (fun tr => tr.y) (fun x => x * x) 5 ⟨[1, 2], [1, 4]⟩ [1, 4] (by rfl)

/-- **C6**: the execution trace keeps `length(inputs) = length(outputs)` and
is append-only.  (a) For the generic pull loop (from any starting trace),
the final trace extends the starting one by whole (input, output) pairs — in
particular entries are only appended, never removed or modified, equality of
lengths is preserved, and a run from the empty trace ends with equal lengths.
(b) For the shortest-path variant, the execution path is exactly the ordered
concatenation of the query sequences of the recorded `eval_cost` calls, so
when every `eval_cost` call returns input/output sequences of equal length,
the final trace has `length(inputs) = length(outputs)`. -/
theorem trace_lockstep_and_append_only :
    (∀ (X : Type u) (Y : Type v) (next : ExePath X Y → Option X) (f : X → Y)
      (fuel : ℕ) (p tr : ExePath X Y), PartialTrace next f p →
      Algorithm.runLoop next f fuel p = some tr →
        (∃ ext : List (X × Y), tr.x = p.x ++ ext.map Prod.fst ∧
          tr.y = p.y ++ ext.map Prod.snd) ∧ tr.x.length = tr.y.length) ∧
    (∀ (X : Type u) (Y : Type v) (g : Graph)
      (cost_func : ℕ → ℕ → (X → Y) → ℚ × List X × List Y) (f : X → Y)
      (start goal : ℕ),
      ExeFromEvals (fun a b => cost_func a b f)
        (Dijkstras.run_algorithm_on_f g cost_func f start goal).2 ∧
      ((∀ a b : ℕ, ((cost_func a b f).2.1).length = ((cost_func a b f).2.2).length) →
        (Dijkstras.run_algorithm_on_f g cost_func f start goal).2.exeX.length =
          (Dijkstras.run_algorithm_on_f g cost_func f start goal).2.exeY.length)) := by
  constructor
  · intro X Y next f fuel p tr hp hrun
    obtain ⟨hprod, ext, hx, hy⟩ := runLoop_sound fuel p tr hp hrun
    exact ⟨⟨ext, hx, hy⟩, hprod.1⟩
  · intro X Y g cost_func f start goal
    have hrun := dijkRun_eq g (fun a b => cost_func a b f) start goal
    have hexe : ExeFromEvals (fun a b => cost_func a b f)
        (Dijkstras.run_algorithm_on_f g cost_func f start goal).2 := by
      apply @dijkLoop_exeFromEvals X Y g (fun a b => cost_func a b f) goal
        (dijkFuel g) (dijkInit g start)
        (Dijkstras.run_algorithm_on_f g cost_func f start goal).1
        (Dijkstras.run_algorithm_on_f g cost_func f start goal).2
        (by rw [hrun]; rfl)
      exact ⟨rfl, rfl⟩
    refine ⟨hexe, ?_⟩
    intro hlen
    obtain ⟨hx, hy⟩ := hexe
    rw [hx, hy, List.length_flatten, List.length_flatten, List.map_map, List.map_map]
    congr 1
    apply List.map_congr_left
    intro ev _
    exact hlen ev.1 ev.2.1

theorem trace_lockstep_and_append_only_witness :
    ((∃ ext : List (ℕ × ℕ),
      (⟨[1, 2], [1, 4]⟩ : ExePath ℕ ℕ).x = ([] : List ℕ) ++ ext.map Prod.fst ∧
      (⟨[1, 2], [1, 4]⟩ : ExePath ℕ ℕ).y = ([] : List ℕ) ++ ext.map Prod.snd) ∧
      (⟨[1, 2], [1, 4]⟩ : ExePath ℕ ℕ).x.length =
        (⟨[1, 2], [1, 4]⟩ : ExePath ℕ ℕ).y.length) ∧
    ((Dijkstras.run_algorithm_on_f (⟨[[1], []]⟩ : Graph)
        (fun _ _ _ => ((1 : ℚ), ([10] : List ℕ), ([20] : List ℕ)))
        (fun x : ℕ => x) 0 1).2.exeX.length =
      (Dijkstras.run_algorithm_on_f (⟨[[1], []]⟩ : Graph)
        (fun _ _ _ => ((1 : ℚ), ([10] : List ℕ), ([20] : List ℕ)))
        (fun x : ℕ => x) 0 1).2.exeY.length) :=
  ⟨(trace_lockstep_and_append_only.1 ℕ ℕ (Algorithm.get_next_x [1, 2])
      (fun x => x * x) 5 ⟨[], []⟩ ⟨[1, 2], [1, 4]⟩
      (partialTrace_nil _ _) (by rfl)),
   ((trace_lockstep_and_append_only.2 ℕ ℕ ⟨[[1], []]⟩
      (fun _ _ _ => ((1 : ℚ), ([10] : List ℕ), ([20] : List ℕ)))
      (fun x => x) 0 1).2 (fun _ _ => rfl))⟩

/-- **C7**: For every completed trace, invoking the generic derive-output
operation on the shortest-path variant fails with the unsupported-operation
error (`RuntimeError("Can't return output from execution path for
Dijkstras")`); it never returns a value. -/
theorem dijkstras_get_output_always_errors (X : Type u) (Y : Type v) (O : Type w)
    (p : ExePath X Y) :
    @Dijkstras.get_output_from_exe_path X Y O p =
      Except.error "Can't return output from execution path for Dijkstras" := rfl

/-- **C8**: For every non-randomized variant driven by the generic pull loop —
`next_query` is *by construction* a pure function of the trace and the
immutable parameters, with no hidden state — and every deterministic oracle,
any two completed runs with identical parameters produce identical traces and
identical outputs (even with different loop-fuel bounds). -/
theorem scan_runs_are_deterministic
    (X : Type u) (Y : Type v) (O : Type w) (next : ExePath X Y → Option X)
    (out : ExePath X Y → O) (f : X → Y) (fuel₁ fuel₂ : ℕ)
    (tr₁ tr₂ : ExePath X Y) (o₁ o₂ : O)
    (h₁ : Algorithm.run_algorithm_on_f next out f fuel₁ = some (tr₁, o₁))
    (h₂ : Algorithm.run_algorithm_on_f next out f fuel₂ = some (tr₂, o₂)) :
    tr₁ = tr₂ ∧ o₁ = o₂ := by
  obtain ⟨hp₁, ho₁⟩ := run_algorithm_on_f_spec h₁
  obtain ⟨hp₂, ho₂⟩ := run_algorithm_on_f_spec h₂
  have htr : tr₁ = tr₂ := producedBy_unique hp₁ hp₂
  refine ⟨htr, ?_⟩
  rw [ho₁, ho₂, htr]

theorem scan_runs_are_deterministic_witness :
    (⟨[1, 2], [1, 4]⟩ : ExePath ℕ ℕ) = (⟨[1, 2], [1, 4]⟩ : ExePath ℕ ℕ) ∧
    ([1, 4] : List ℕ) = [1, 4] :=
  scan_runs_are_deterministic ℕ ℕ (List ℕ) (Algorithm.get_next_x [1, 2])
    (fun tr => tr.y) (fun x => x * x) 5 9 ⟨[1, 2], [1, 4]⟩ ⟨[1, 2], [1, 4]⟩
    [1, 4] [1, 4] (by rfl) (by rfl)

/-- **C9** (counterexample): the parameter bundle is *not* unchanged for the
duration of every run.  With `x_path_orig = [[0],[1],[2],[3],[4]]` (so the
legal random grid sizes are `{4, 5} = [ceil(0.8·5), ceil(1.2·5))`) and the
drawn size `4`, `LinearScanRandGap.run_algorithm_on_f` completes and leaves a
regenerated 4-point grid in `params.x_path`, while `params.x_path` held the
5-point grid `[[0],[1],[2],[3],[4]]` before the call — so the bundle was
mutated during the run. -/
theorem randgap_run_mutates_params_counterexample :
    (LinearScanRandGap.gapBounds 5).1 ≤ 4 ∧ 4 < (LinearScanRandGap.gapBounds 5).2 ∧
    (LinearScanRandGap.run_algorithm_on_f
      ⟨"LinearScanRandGap", [[0], [1], [2], [3], [4]], [[0], [1], [2], [3], [4]]⟩
      (fun _ => (0 : ℚ)) 4 10).map (fun r => r.2.x_path.length) = some 4 ∧
    (4 : ℕ) ≠ ([[0], [1], [2], [3], [4]] : List (List ℚ)).length := by
  have h : LinearScanRandGap.gapBounds 5 = (4, 6) := by
    unfold LinearScanRandGap.gapBounds
    norm_num
  refine ⟨?_, ?_, by decide, by decide⟩
  · rw [h]
  · rw [h]
    decide

/-- **C9** (amended): the parameter bundle is unchanged for the duration of a
run for every variant except `LinearScanRandGap`: (i) the generic pull loop
reads the bundle only through its accessors and never assigns to it, so each
variant that does not override `run` (`LinearScan`, `AverageOutputs`,
`SortOutputs`, `OptRightScan`) gets its bundle back exactly as it was;
(ii) `LinearScan` concretely returns its bundle as given; (iii) the
overridden `Dijkstras.run_algorithm_on_f` reads `start`/`goal`/`vertices`/
`cost_func` but never assigns to the bundle; (iv) so does `Noop`'s.  But (v)
`LinearScanRandGap.run_algorithm_on_f` overwrites `params.x_path` with a
freshly drawn grid before running the loop and leaves that value in place
after returning; only its `name` and `x_path_orig` fields survive a run
unchanged. -/
theorem params_across_run_amended :
    (∀ (X : Type u) (Y : Type v) (O : Type w) (P : Type u)
      (next : P → ExePath X Y → Option X) (out : P → ExePath X Y → O)
      (p : P) (f : X → Y) (fuel : ℕ) (r : ExePath X Y × O) (p' : P),
      Algorithm.run_on_bundle next out p f fuel = some (r, p') → p' = p) ∧
    (∀ (X : Type u) (Y : Type v) (p : LinearScanParams X) (f : X → Y) (fuel : ℕ)
      (r : ExePath X Y × List Y) (p' : LinearScanParams X),
      LinearScan.run_algorithm_on_f p f fuel = some (r, p') → p' = p) ∧
    (∀ (X : Type u) (Y : Type v) (p : Dijkstras.Params X Y) (f : X → Y)
      (r : DijkOutcome × DijkState X Y) (p' : Dijkstras.Params X Y),
      Dijkstras.run_on_bundle p f = some (r, p') → p' = p) ∧
    (∀ (X : Type u) (Y : Type v) (p : NoopParams) (f : X → Y),
      (Noop.run_algorithm_on_f p f).2 = p) ∧
    (∀ (Y : Type v) (p : LinearScanRandGapParams) (f : List ℚ → Y)
      (draw fuel : ℕ) (r : ExePath (List ℚ) Y × List Y)
      (p' : LinearScanRandGapParams),
      LinearScanRandGap.run_algorithm_on_f p f draw fuel = some (r, p') →
      p'.name = p.name ∧ p'.x_path_orig = p.x_path_orig) := by
  refine ⟨?_, ?_, ?_, ?_, ?_⟩
  · intro X Y O P next out p f fuel r p' h
    unfold Algorithm.run_on_bundle at h
    cases hinner : Algorithm.run_algorithm_on_f (next p) (out p) f fuel with
    | none => rw [hinner] at h; cases h
    | some r' =>
      rw [hinner] at h
      simp only [Option.map_some', Option.some.injEq, Prod.mk.injEq] at h
      exact h.2.symm
  · intro X Y p f fuel r p' h
    unfold LinearScan.run_algorithm_on_f at h
    cases hinner : Algorithm.run_algorithm_on_f (Algorithm.get_next_x p.x_path)
        LinearScan.get_output_from_exe_path f fuel with
    | none => rw [hinner] at h; cases h
    | some r' =>
      rw [hinner] at h
      simp only [Option.map_some', Option.some.injEq, Prod.mk.injEq] at h
      exact h.2.symm
  · intro X Y p f r p' h
    unfold Dijkstras.run_on_bundle at h
    split at h
    · simp only [Option.some.injEq, Prod.mk.injEq] at h
      exact h.2.symm
    · cases h
  · intro X Y p f
    rfl
  · intro Y p f draw fuel r p' h
    unfold LinearScanRandGap.run_algorithm_on_f at h
    cases hmin : (p.x_path_orig.flatten).min? with
    | none => rw [hmin] at h; cases h
    | some mn =>
      cases hmax : (p.x_path_orig.flatten).max? with
      | none => rw [hmin, hmax] at h; cases h
      | some mx =>
        rw [hmin, hmax] at h
        simp only at h
        cases hinner : Algorithm.run_algorithm_on_f
            (Algorithm.get_next_x ((linspace mn mx draw).map (fun x => [x])))
            LinearScan.get_output_from_exe_path f fuel with
        | none => rw [hinner] at h; cases h
        | some r' =>
          rw [hinner] at h
          simp only [Option.map_some', Option.some.injEq, Prod.mk.injEq] at h
          rw [← h.2]
          exact ⟨rfl, rfl⟩

theorem params_across_run_amended_witness :
    ((7 : ℕ) = 7) ∧
    ((⟨"LinearScan", [1, 2]⟩ : LinearScanParams ℕ) =
      (⟨"LinearScan", [1, 2]⟩ : LinearScanParams ℕ)) ∧
    ((⟨"Dijkstras", some 0, some 1, some ⟨[[1], []]⟩,
        some (fun _ _ _ => ((1 : ℚ), ([] : List ℕ), ([] : List ℕ))), none⟩ :
          Dijkstras.Params ℕ ℕ) =
      (⟨"Dijkstras", some 0, some 1, some ⟨[[1], []]⟩,
        some (fun _ _ _ => ((1 : ℚ), ([] : List ℕ), ([] : List ℕ))), none⟩ :
          Dijkstras.Params ℕ ℕ)) ∧
    ((Noop.run_algorithm_on_f ⟨"Algorithm"⟩ (fun x : ℕ => x)).2 =
      (⟨"Algorithm"⟩ : NoopParams)) ∧
    (("LinearScanRandGap" : String) = "LinearScanRandGap" ∧
      ([[0], [1], [2], [3], [4]] : List (List ℚ)) = [[0], [1], [2], [3], [4]]) :=
  ⟨params_across_run_amended.{0, 0, 0}.1 ℕ ℕ (List ℕ) ℕ
      (fun _ => Algorithm.get_next_x [1, 2])
      (fun _ => LinearScan.get_output_from_exe_path) 7 (fun x => x * x) 5
      (⟨[1, 2], [1, 4]⟩, [1, 4]) 7 (by rfl),
   params_across_run_amended.{0, 0, 0}.2.1 ℕ ℕ ⟨"LinearScan", [1, 2]⟩ (fun x => x) 5
      (⟨[1, 2], [1, 2]⟩, [1, 2]) ⟨"LinearScan", [1, 2]⟩ (by rfl),
   params_across_run_amended.{0, 0, 0}.2.2.1 ℕ ℕ
      ⟨"Dijkstras", some 0, some 1, some ⟨[[1], []]⟩,
        some (fun _ _ _ => ((1 : ℚ), ([] : List ℕ), ([] : List ℕ))), none⟩
      (fun x => x)
      (Dijkstras.run_algorithm_on_f ⟨[[1], []]⟩
        (fun _ _ _ => ((1 : ℚ), ([] : List ℕ), ([] : List ℕ))) (fun x => x) 0 1)
      ⟨"Dijkstras", some 0, some 1, some ⟨[[1], []]⟩,
        some (fun _ _ _ => ((1 : ℚ), ([] : List ℕ), ([] : List ℕ))), none⟩
      (by rfl),
   params_across_run_amended.{0, 0, 0}.2.2.2.1 ℕ ℕ ⟨"Algorithm"⟩ (fun x => x),
   params_across_run_amended.{0, 0, 0}.2.2.2.2 ℚ
      ⟨"LinearScanRandGap", [[0], [1], [2], [3], [4]], [[0], [1], [2], [3], [4]]⟩
      (fun _ => (0 : ℚ)) 1 10
      (⟨[[0]], [0]⟩, [0])
      ⟨"LinearScanRandGap", [[0]], [[0], [1], [2], [3], [4]]⟩
      (by decide)⟩

/-- **C10** (counterexample): constructing the shortest-path variant from a
parameter bundle that omits `start`, `goal` and `vertices` does *not* fail:
`Dijkstras.set_params` reads every field with a `getattr(..., default)` and
succeeds, storing the missing fields as absent (`None`) without any
validation — so construction does succeed with these fields absent. -/
theorem dijkstras_set_params_missing_fields_succeeds :
    @Dijkstras.set_params ℕ ℕ ⟨none, none, none, none, none, none⟩ =
      ⟨"Dijkstras", none, none, none, none, none⟩ := rfl

/-- **C10** (amended): construction never fails.  `Dijkstras.set_params` is
total: whatever fields the bundle omits, it returns a parameter record in
which `start`, `goal` and `vertices` are stored exactly as given (absent
fields stay absent, with no configuration error at construction time) and
`name` falls back to `"Dijkstras"`; a missing `start`/`goal`/`vertices` can
only surface later, when the run dereferences it. -/
theorem dijkstras_set_params_total_stores_missing_as_none
    (X : Type u) (Y : Type v) (p : Dijkstras.InputParams X Y) :
    (Dijkstras.set_params p).start = p.start ∧
    (Dijkstras.set_params p).goal = p.goal ∧
    (Dijkstras.set_params p).vertices = p.vertices ∧
    (Dijkstras.set_params p).name = p.name.getD "Dijkstras" :=
  ⟨rfl, rfl, rfl, rfl⟩
